import Mathlib

/-!
Verification of the RabbitMQ pub/sub integration layer of this repository
(`applications/fast-api/rabbitmq-pubsub/rabbitmq.py`, with its callers in
`publisher.py` and `subscriber.py`), shallowly embedded in Lean.

The `RabbitMQManager` class holds an optional connection and an optional
channel; every method is modelled as a pure function from the manager state
to a result together with the trace of AMQP operations it sends to the
broker through the aio_pika client.  The behaviour of the aio_pika context
manager `message.process(...)` used by `consume_messages` is embedded from
that library's documented semantics (its `ProcessContext.__aexit__`
acknowledges the delivery on a clean exit whenever the callback has not
already processed the message; `ignore_processed` only suppresses the
ack/reject when the message was already processed manually).

The JSON payload pipeline (`json.dumps(body).encode()` on publish,
`json.loads(message.body.decode())` on consume) is embedded as a decimal
JSON value model with a renderer, a recursive-descent parser following the
grammar Python's `json` module implements, and a UTF-8 encoder/decoder.
Python floats are idealized as exact decimal numbers
(`mantissa / 10 ^ fracDigits`); IEEE-754 rounding and the float-only
constants `NaN`/`Infinity` are outside the embedding.
-/

namespace RabbitMQPubSub

/-! ## Exchange types (aio_pika `ExchangeType`) -/

inductive ExchangeType
  | direct
  | fanout
  | topic
  | headers
deriving DecidableEq, Repr

/-! ## JSON payload model

Python values accepted by `json.dumps`: `None`, `bool`, `int`/`float`
(modelled as the exact decimal `mantissa / 10 ^ fracDigits`; an `int` has
`fracDigits = 0`), `str`, `list`, `dict` (an association list in insertion
order; a real Python `dict` has pairwise-distinct keys, captured by `pyWf`
below).  Strings are lists of Unicode scalar values. -/

inductive Json
  | null
  | bool (b : Bool)
  | num (mantissa : Int) (fracDigits : Nat)
  | str (s : List Char)
  | arr (items : List Json)
  | obj (members : List (List Char × Json))

/-! ## AMQP operations sent to the broker -/

inductive AmqpOp
  | declareExchange (name : String) (ty : ExchangeType) (durable : Bool)
  | declareQueue (name : String) (durable exclusive autoDelete : Bool)
  | bindQueue (queue exchange routingKey : String)
  | publish (exchange routingKey : String) (body : List Nat)
      (deliveryMode priority : Nat) (contentType : String)
  | setQos (prefetchCount : Nat)
  | closeChannel
  | closeConnection
deriving DecidableEq, Repr

/-- Acknowledgment decisions taken for one delivery. -/
inductive AckAction
  | ack
  | reject (requeue : Bool)
deriving DecidableEq, Repr

/-- Python exceptions observable from the embedded methods.  The code under
`rabbitmq.py` defines no error classes of its own; `publishError` is
modelled from the spec (its §7 error taxonomy names a typed `PublishError`)
purely so that the claim comparing the code's errors against that taxonomy
can be stated. -/
inductive PyError
  | attributeError
  | genericException
  | publishError
deriving DecidableEq, Repr

/-- aio_pika channel handle: the only state the embedding needs is whether
`close()` was already called on it. -/
structure ChannelState where
  closed : Bool
deriving DecidableEq, Repr

/-- aio_pika robust-connection handle, as for `ChannelState`. -/
structure ConnectionState where
  closed : Bool
deriving DecidableEq, Repr

/-- The `RabbitMQManager` instance state: `self.connection` and
`self.channel`, both initialised to `None` in `__init__`. -/
structure Manager where
  connection : Option ConnectionState
  channel : Option ChannelState
deriving DecidableEq, Repr

/-- `__init__`: both fields `None`. -/
def Manager.init : Manager := ⟨none, none⟩

/-- `connect()`: opens a connection and a channel and sets
`prefetch_count=1` on the channel. -/
def connect (_m : Manager) : Manager × List AmqpOp :=
  (⟨some ⟨false⟩, some ⟨false⟩⟩, [AmqpOp.setQos 1])

/-- aio_pika `Channel.close`: returns quietly when the channel is already
closed (it logs a warning), otherwise sends the close frame. -/
def ChannelState.close (c : ChannelState) : ChannelState × List AmqpOp :=
  if c.closed then (c, []) else (⟨true⟩, [AmqpOp.closeChannel])

/-- aio_pika `Connection.close`: idempotent in the same way as
`ChannelState.close`. -/
def ConnectionState.close (c : ConnectionState) : ConnectionState × List AmqpOp :=
  if c.closed then (c, []) else (⟨true⟩, [AmqpOp.closeConnection])

/-- `disconnect()`: `if self.channel: await self.channel.close()` then
`if self.connection: await self.connection.close()`.  Neither field is ever
reset to `None`.  No path raises: the truthiness guards skip `None` fields
and both library `close()` calls are total. -/
def disconnect (m : Manager) : Manager × List AmqpOp :=
  let chanStep : Option ChannelState × List AmqpOp :=
    match m.channel with
    | some c => (some (c.close).1, (c.close).2)
    | none => (none, [])
  let connStep : Option ConnectionState × List AmqpOp :=
    match m.connection with
    | some c => (some (c.close).1, (c.close).2)
    | none => (none, [])
  (⟨connStep.1, chanStep.1⟩, chanStep.2 ++ connStep.2)

/-- `declare_exchange(exchange_name, exchange_type, durable)`: calls
`self.channel.declare_exchange(...)`.  When the manager never connected,
`self.channel` is `None` and the attribute access raises `AttributeError`.
The Python defaults are `exchange_type=ExchangeType.TOPIC, durable=True`;
call sites below pass them explicitly. -/
def declare_exchange (m : Manager) (name : String) (ty : ExchangeType)
    (durable : Bool) : Except PyError (List AmqpOp) :=
  match m.channel with
  | none => .error .attributeError
  | some _ => .ok [AmqpOp.declareExchange name ty durable]

/-- `declare_queue(queue_name, durable, exclusive, auto_delete)`: passes
all four arguments straight through to `self.channel.declare_queue`; no queue
name, the empty string included, is special-cased.  Python defaults:
`durable=True, exclusive=False, auto_delete=False`. -/
def declare_queue (m : Manager) (name : String)
    (durable exclusive autoDelete : Bool) : Except PyError (List AmqpOp) :=
  match m.channel with
  | none => .error .attributeError
  | some _ => .ok [AmqpOp.declareQueue name durable exclusive autoDelete]

/-- `bind_queue(queue_name, exchange_name, routing_key)`: declares the queue
with default flags, declares the exchange with default type/durability
(`ExchangeType.TOPIC`, `durable=True` — there is no way to pass another
type through this method), then binds. -/
def bind_queue (m : Manager) (queueName exchangeName routingKey : String) :
    Except PyError (List AmqpOp) := do
  let t1 ← declare_queue m queueName true false false
  let t2 ← declare_exchange m exchangeName ExchangeType.topic true
  return t1 ++ t2 ++ [AmqpOp.bindQueue queueName exchangeName routingKey]

/-! ## JSON rendering (Python `json.dumps` with its default arguments:
`ensure_ascii=True`, separators `", "` and `": "`) -/

/-- The character of a decimal digit (`d` is reduced modulo 10). -/
def digitChar (d : Nat) : Char :=
  match d % 10 with
  | 0 => '0' | 1 => '1' | 2 => '2' | 3 => '3' | 4 => '4'
  | 5 => '5' | 6 => '6' | 7 => '7' | 8 => '8' | _ => '9'

/-- The character of a hexadecimal digit, lowercase as `'\\u%04x' % n`
formats it (`d` is reduced modulo 16). -/
def hexChar (d : Nat) : Char :=
  match d % 16 with
  | 0 => '0' | 1 => '1' | 2 => '2' | 3 => '3' | 4 => '4'
  | 5 => '5' | 6 => '6' | 7 => '7' | 8 => '8' | 9 => '9'
  | 10 => 'a' | 11 => 'b' | 12 => 'c' | 13 => 'd' | 14 => 'e' | _ => 'f'

/-- Decimal digits of `n`, most significant first, in front of `acc`
(the digits `repr(int)` prints for a non-negative value). -/
def natChars (n : Nat) (acc : List Char) : List Char :=
  if n < 10 then digitChar n :: acc
  else natChars (n / 10) (digitChar n :: acc)
termination_by n
decreasing_by omega

/-- `repr(int)`: an optional minus sign followed by the decimal digits. -/
def intChars (i : Int) : List Char :=
  (if i < 0 then ['-'] else []) ++ natChars i.natAbs []

/-- Exactly `w` decimal digits of `n % 10 ^ w`, most significant first
(the zero-padded fractional part of a decimal). -/
def natCharsPad (w n : Nat) : List Char :=
  match w with
  | 0 => []
  | w + 1 => natCharsPad w (n / 10) ++ [digitChar n]

/-- The characters of the decimal `m / 10 ^ f`: for `f = 0` the integer
form `repr(int)`, otherwise sign, integer part, `'.'`, and exactly `f`
fractional digits (the plain decimal form `repr(float)` prints for
magnitudes that need no exponent; exponent forms are never produced by
this model). -/
def numChars (m : Int) (f : Nat) : List Char :=
  if f = 0 then intChars m
  else
    (if m < 0 then ['-'] else []) ++ natChars (m.natAbs / 10 ^ f) []
      ++ '.' :: natCharsPad f (m.natAbs % 10 ^ f)

/-- The six characters `\uXXXX` (`n` is reduced modulo `0x10000`). -/
def uEscape (n : Nat) : List Char :=
  ['\\', 'u', hexChar (n / 4096), hexChar (n / 256), hexChar (n / 16), hexChar n]

/-- `json.encoder.py_encode_basestring_ascii` on one character: the two-byte
escapes of `ESCAPE_DCT`, `\u00xx` for the other control characters,
the character itself for printable ASCII (`0x20`–`0x7e`), and `\uXXXX`
(with a surrogate pair above `0xffff`) for everything else. -/
def escapeChar (c : Char) : List Char :=
  if c = '\\' then ['\\', '\\']
  else if c = '"' then ['\\', '"']
  else if c = '\n' then ['\\', 'n']
  else if c = '\r' then ['\\', 'r']
  else if c = '\t' then ['\\', 't']
  else if c.toNat = 8 then ['\\', 'b']
  else if c.toNat = 12 then ['\\', 'f']
  else if c.toNat < 32 then uEscape c.toNat
  else if c.toNat ≤ 126 then [c]
  else if c.toNat < 65536 then uEscape c.toNat
  else uEscape (55296 + (c.toNat - 65536) / 1024)
    ++ uEscape (56320 + (c.toNat - 65536) % 1024)

/-- A rendered string: opening quote, escaped characters, closing quote. -/
def strChars (s : List Char) : List Char :=
  '"' :: (s.flatMap escapeChar ++ ['"'])

mutual

/-- `json.dumps` with its defaults, producing the character list of the
document.  The default separators put one space after every comma and
colon. -/
def dumps : Json → List Char
  | .str s => strChars s
  | .num m f => numChars m f
  | .arr items => '[' :: (dumpItems items ++ [']'])
  | .obj ms => '{' :: (dumpPairs ms ++ ['}'])
  | .null => ['n', 'u', 'l', 'l']
  | .bool false => ['f', 'a', 'l', 's', 'e']
  | .bool true => ['t', 'r', 'u', 'e']

/-- The comma-space separated renderings of an array's items. -/
def dumpItems : List Json → List Char
  | [] => []
  | [v] => dumps v
  | v :: vs => dumps v ++ ',' :: ' ' :: dumpItems vs

/-- The comma-space separated `"key": value` renderings of an object. -/
def dumpPairs : List (List Char × Json) → List Char
  | [] => []
  | [(k, v)] => strChars k ++ ':' :: ' ' :: dumps v
  | (k, v) :: ms => strChars k ++ ':' :: ' ' :: dumps v ++ ',' :: ' ' :: dumpPairs ms

end

/-! ## Well-formedness: values that come from actual Python data

A Python `dict` cannot hold two equal keys, so every object reaching
`json.dumps` has pairwise-distinct keys, recursively. -/

/-- No key occurs twice. -/
def keysDistinct : List (List Char) → Bool
  | [] => true
  | k :: ks => !(ks.contains k) && keysDistinct ks

mutual

/-- Every object in the value has pairwise-distinct keys. -/
def pyWf : Json → Bool
  | .null => true
  | .bool _ => true
  | .num _ _ => true
  | .str _ => true
  | .arr items => pyWfList items
  | .obj ms => keysDistinct (ms.map Prod.fst) && pyWfPairs ms

/-- `pyWf` on every item. -/
def pyWfList : List Json → Bool
  | [] => true
  | v :: vs => pyWf v && pyWfList vs

/-- `pyWf` on every member value. -/
def pyWfPairs : List (List Char × Json) → Bool
  | [] => true
  | (_, v) :: ms => pyWf v && pyWfPairs ms

end

/-! ## JSON parsing (Python `json.loads` with its default arguments)

A recursive-descent parser for the grammar `json.decoder` implements:
RFC 8259 with Python's strictness (no leading zeros in numbers, at least
one digit after the decimal point and the exponent marker, no raw control
characters inside strings, a lone high surrogate escape kept as written).
The float-only constants `NaN`/`Infinity`/`-Infinity`, which Python also
accepts, are outside the decimal model and omitted.  Objects are built the
way the scanner builds a `dict`: a later duplicate key overwrites the
earlier value in place. -/

/-- The whitespace characters of `json.decoder.WHITESPACE`. -/
def isJsonWs (c : Char) : Bool := c = ' ' || c = '\t' || c = '\n' || c = '\r'

/-- Drop leading JSON whitespace. -/
def skipWs : List Char → List Char
  | [] => []
  | c :: cs => if isJsonWs c then skipWs cs else c :: cs

/-- Decimal digit test. -/
def isDigitChar (c : Char) : Bool := '0' ≤ c && c ≤ '9'

/-- The value of one decimal digit character. -/
def digitVal (c : Char) : Nat := c.toNat - 48

/-- Split off the longest leading run of decimal digits. -/
def takeDigits : List Char → List Char × List Char
  | [] => ([], [])
  | c :: cs =>
    if isDigitChar c then
      let p := takeDigits cs
      (c :: p.1, p.2)
    else ([], c :: cs)

/-- The number denoted by a digit run (most significant first). -/
def digitsVal (ds : List Char) : Nat :=
  ds.foldl (fun a c => a * 10 + digitVal c) 0

/-- The integer-part rule of the JSON grammar: a single `0`, or a nonzero
leading digit. -/
def intPartOk : List Char → Bool
  | [] => false
  | [_] => true
  | c :: _ => c ≠ '0'

/-- Parse one number token (after its leading sign/digit was sighted) into
the decimal `(mantissa, fracDigits)` normal form.  An exponent is folded
into the mantissa or the fractional width; Python would build a float out
of any token that has a fraction or an exponent, which the exact decimal
idealizes. -/
def parseNumber (cs : List Char) : Option ((Int × Nat) × List Char) :=
  let signSplit : Bool × List Char :=
    match cs with
    | '-' :: r => (true, r)
    | _ => (false, cs)
  let ip := takeDigits signSplit.2
  if intPartOk ip.1 then
    let fp : Option (List Char × List Char) :=
      match ip.2 with
      | '.' :: r =>
        let q := takeDigits r
        if q.1 = [] then none else some (q.1, q.2)
      | _ => some ([], ip.2)
    match fp with
    | none => none
    | some (fracDs, afterFrac) =>
      let ex : Option (Int × List Char) :=
        match afterFrac with
        | 'e' :: r | 'E' :: r =>
          let es : Bool × List Char :=
            match r with
            | '+' :: r2 => (false, r2)
            | '-' :: r2 => (true, r2)
            | _ => (false, r)
          let q := takeDigits es.2
          if q.1 = [] then none
          else some ((if es.1 then -(digitsVal q.1 : Int) else (digitsVal q.1 : Int)), q.2)
        | _ => some (0, afterFrac)
      match ex with
      | none => none
      | some (expVal, rest) =>
        let digits : Nat := digitsVal (ip.1 ++ fracDs)
        let mag : Int := if signSplit.1 then -(digits : Int) else (digits : Int)
        let t : Int := expVal - (fracDs.length : Int)
        if 0 ≤ t then some ((mag * (10 : Int) ^ t.toNat, 0), rest)
        else some ((mag, (-t).toNat), rest)
  else none

/-- The value of one hexadecimal digit character, any case. -/
def hexVal (c : Char) : Option Nat :=
  if '0' ≤ c && c ≤ '9' then some (c.toNat - 48)
  else if 'a' ≤ c && c ≤ 'f' then some (c.toNat - 87)
  else if 'A' ≤ c && c ≤ 'F' then some (c.toNat - 55)
  else none

/-- Four hexadecimal digits, as `json.decoder._decode_uXXXX`. -/
def hex4 (a b c d : Char) : Option Nat :=
  match hexVal a, hexVal b, hexVal c, hexVal d with
  | some x, some y, some z, some w => some (x * 4096 + y * 256 + z * 16 + w)
  | _, _, _, _ => none

/-- The table `json.decoder.BACKSLASH` of short escapes. -/
def shortEscape : Char → Option Char
  | '"' => some '"'
  | '\\' => some '\\'
  | '/' => some '/'
  | 'b' => some (Char.ofNat 8)
  | 'f' => some (Char.ofNat 12)
  | 'n' => some '\n'
  | 'r' => some '\r'
  | 't' => some '\t'
  | _ => none

/-- `json.decoder.py_scanstring` after the opening quote, accumulating the
decoded characters in reverse.  Strict mode: a raw control character is an
error.  A `\uXXXX` escape in the high-surrogate range combines with an
immediately following low-surrogate escape; otherwise Python keeps the lone
surrogate (which is not a Unicode scalar, so no rendered output ever takes
that branch). -/
def scanString (acc : List Char) : List Char → Option (List Char × List Char)
  | [] => none
  | ch :: rest =>
    if ch = '"' then some (acc.reverse, rest)
    else if ch = '\\' then
      match rest with
      | 'u' :: a :: b :: c :: d :: rest2 =>
        match hex4 a b c d with
        | none => none
        | some n =>
          if 55296 ≤ n ∧ n ≤ 56319 then
            match rest2 with
            | '\\' :: 'u' :: a2 :: b2 :: c2 :: d2 :: rest3 =>
              match hex4 a2 b2 c2 d2 with
              | none => none
              | some n2 =>
                if 56320 ≤ n2 ∧ n2 ≤ 57343 then
                  scanString
                    (Char.ofNat (65536 + (n - 55296) * 1024 + (n2 - 56320)) :: acc) rest3
                else
                  scanString (Char.ofNat n :: acc)
                    ('\\' :: 'u' :: a2 :: b2 :: c2 :: d2 :: rest3)
            | other => scanString (Char.ofNat n :: acc) other
          else scanString (Char.ofNat n :: acc) rest2
      | e :: rest2 =>
        match shortEscape e with
        | some ch2 => scanString (ch2 :: acc) rest2
        | none => none
      | [] => none
    else if ch.toNat < 32 then none
    else scanString (ch :: acc) rest
termination_by cs => cs.length
decreasing_by all_goals (simp_wf <;> omega)

/-- Overwrite-or-append insertion, as assigning `d[k] = v` builds a Python
`dict`: insertion order is kept, a duplicate key keeps its first position
and takes the last value. -/
def dictInsert (acc : List (List Char × Json)) (k : List Char) (v : Json) :
    List (List Char × Json) :=
  if acc.any (fun p => p.1 == k) then
    acc.map (fun p => if p.1 == k then (p.1, v) else p)
  else acc ++ [(k, v)]

/-- The `dict` built from parsed members in order. -/
def dictOfPairs (ps : List (List Char × Json)) : List (List Char × Json) :=
  ps.foldl (fun acc kv => dictInsert acc kv.1 kv.2) []

mutual

/-- Parse one JSON value (fuel-indexed; one unit per recursive entry). -/
def parseValue : Nat → List Char → Option (Json × List Char)
  | 0, _ => none
  | fuel + 1, cs =>
    match skipWs cs with
    | 'n' :: 'u' :: 'l' :: 'l' :: r => some (.null, r)
    | 't' :: 'r' :: 'u' :: 'e' :: r => some (.bool true, r)
    | 'f' :: 'a' :: 'l' :: 's' :: 'e' :: r => some (.bool false, r)
    | '"' :: r =>
      match scanString [] r with
      | some (s, r2) => some (.str s, r2)
      | none => none
    | '[' :: r =>
      match skipWs r with
      | ']' :: r2 => some (.arr [], r2)
      | r2 =>
        match parseItems fuel r2 with
        | some (vs, r3) => some (.arr vs, r3)
        | none => none
    | '{' :: r =>
      match skipWs r with
      | '}' :: r2 => some (.obj [], r2)
      | r2 =>
        match parsePairs fuel r2 with
        | some (ms, r3) => some (.obj (dictOfPairs ms), r3)
        | none => none
    | c :: r =>
      if c = '-' || isDigitChar c then
        match parseNumber (c :: r) with
        | some (p, r2) => some (.num p.1 p.2, r2)
        | none => none
      else none
    | [] => none

/-- Parse the one-or-more comma-separated items of a non-empty array, up to
and including the closing bracket. -/
def parseItems : Nat → List Char → Option (List Json × List Char)
  | 0, _ => none
  | fuel + 1, cs =>
    match parseValue fuel cs with
    | none => none
    | some (v, r) =>
      match skipWs r with
      | ',' :: r2 =>
        match parseItems fuel r2 with
        | some (vs, r3) => some (v :: vs, r3)
        | none => none
      | ']' :: r2 => some ([v], r2)
      | _ => none

/-- Parse the one-or-more `"key": value` members of a non-empty object, up
to and including the closing brace. -/
def parsePairs : Nat → List Char → Option (List (List Char × Json) × List Char)
  | 0, _ => none
  | fuel + 1, cs =>
    match skipWs cs with
    | '"' :: r =>
      match scanString [] r with
      | none => none
      | some (key, r1) =>
        match skipWs r1 with
        | ':' :: r2 =>
          match parseValue fuel r2 with
          | none => none
          | some (v, r3) =>
            match skipWs r3 with
            | ',' :: r4 =>
              match parsePairs fuel r4 with
              | some (ms, r5) => some ((key, v) :: ms, r5)
              | none => none
            | '}' :: r4 => some ([(key, v)], r4)
            | _ => none
        | _ => none
    | _ => none

end

/-- `json.loads` on a character list: parse one document, allow trailing
whitespace only. -/
def loads (cs : List Char) : Option Json :=
  match parseValue (cs.length + 1) cs with
  | some (v, r) => if skipWs r = [] then some v else none
  | none => none

/-! ## UTF-8 (`str.encode()` / `bytes.decode()`) -/

/-- UTF-8 bytes of one Unicode scalar value. -/
def utf8Char (c : Char) : List Nat :=
  let v := c.toNat
  if v < 128 then [v]
  else if v < 2048 then [192 + v / 64, 128 + v % 64]
  else if v < 65536 then [224 + v / 4096, 128 + v / 64 % 64, 128 + v % 64]
  else [240 + v / 262144, 128 + v / 4096 % 64, 128 + v / 64 % 64, 128 + v % 64]

/-- `str.encode()`: the concatenated UTF-8 bytes. -/
def utf8Encode (s : List Char) : List Nat := s.flatMap utf8Char

/-- A UTF-8 continuation byte. -/
def contByte (b : Nat) : Bool := 128 ≤ b && b < 192

/-- `bytes.decode()` (strict), written against a fuel counter (one unit per
decoded scalar; a byte list of length n never holds more than n scalars):
rejects stray continuation bytes, overlong forms, surrogate code points and
values beyond `0x10ffff`. -/
def utf8DecodeF : Nat → List Nat → Option (List Char)
  | _, [] => some []
  | 0, _ :: _ => none
  | fuel + 1, b :: rest =>
    if b < 128 then
      (utf8DecodeF fuel rest).map (fun cs => Char.ofNat b :: cs)
    else if b < 194 then none
    else
      match rest with
      | [] => none
      | b1 :: rest1 =>
        if b < 224 then
          if contByte b1 then
            (utf8DecodeF fuel rest1).map
              (fun cs => Char.ofNat ((b - 192) * 64 + (b1 - 128)) :: cs)
          else none
        else
          match rest1 with
          | [] => none
          | b2 :: rest2 =>
            if b < 240 then
              if contByte b1 && contByte b2 then
                let v := (b - 224) * 4096 + (b1 - 128) * 64 + (b2 - 128)
                if 2048 ≤ v && !(55296 ≤ v && v ≤ 57343) then
                  (utf8DecodeF fuel rest2).map (fun cs => Char.ofNat v :: cs)
                else none
              else none
            else
              match rest2 with
              | [] => none
              | b3 :: rest3 =>
                if b < 245 then
                  if contByte b1 && contByte b2 && contByte b3 then
                    let v := (b - 240) * 262144 + (b1 - 128) * 4096
                      + (b2 - 128) * 64 + (b3 - 128)
                    if 65536 ≤ v && v < 1114112 then
                      (utf8DecodeF fuel rest3).map (fun cs => Char.ofNat v :: cs)
                    else none
                  else none
                else none

/-- `bytes.decode()` on a byte list, with enough fuel for every scalar. -/
def utf8Decode (bs : List Nat) : Option (List Char) := utf8DecodeF bs.length bs

/-! ## Publishing and consuming -/

/-- The wire payload `publish_message` builds:
`json.dumps(message_body).encode()`. -/
def publishBody (j : Json) : List Nat := utf8Encode (dumps j)

/-- The consume-side decode of a delivered body:
`json.loads(message.body.decode())`. -/
def consumeDecode (bytes : List Nat) : Option Json :=
  match utf8Decode bytes with
  | some cs => loads cs
  | none => none

/-- `publish_message(exchange_name, routing_key, message_body, priority,
delivery_mode)`: declares the exchange (with the method defaults
`ExchangeType.TOPIC`, `durable=True`) on every single call, builds the JSON
message and publishes it, then returns `True`.  Python defaults:
`priority=5`, `delivery_mode=DeliveryMode.PERSISTENT` (wire value 2). -/
def publish_message (m : Manager) (exchangeName routingKey : String)
    (messageBody : Json) (priority deliveryMode : Nat) :
    Except PyError (Bool × List AmqpOp) := do
  let t1 ← declare_exchange m exchangeName ExchangeType.topic true
  return (true, t1 ++ [AmqpOp.publish exchangeName routingKey
    (publishBody messageBody) deliveryMode priority ("application/json")])

/-- A sequence of `publish_message` calls to one exchange name within one
process lifetime (the manager state is unchanged by publishing). -/
def publishSeq (m : Manager) (exchangeName routingKey : String) :
    List Json → Except PyError (List AmqpOp)
  | [] => .ok []
  | b :: bs => do
    let r ← publish_message m exchangeName routingKey b 5 2
    let rest ← publishSeq m exchangeName routingKey bs
    return r.2 ++ rest

/-- How many times a trace declares the exchange `name`. -/
def countDeclares (ops : List AmqpOp) (name : String) : Nat :=
  ops.countP (fun op =>
    match op with
    | AmqpOp.declareExchange n _ _ => n == name
    | _ => false)

/-- What one delivery's callback run does. -/
inductive CallbackOutcome
  | ok
  | raises
deriving DecidableEq, Repr

/-- The body of the `async with message.process(...)` block in
`consume_messages`: `json.loads`/callback failures both surface here as an
exception. -/
def withBlockBody (outcome : CallbackOutcome) : Except PyError Unit :=
  match outcome with
  | .ok => .ok ()
  | .raises => .error .genericException

/-- The same block wrapped in the `try`/`except Exception` that prints and
swallows every exception. -/
def withBlockBodyCaught (outcome : CallbackOutcome) : Except PyError Unit :=
  match withBlockBody outcome with
  | .ok () => .ok ()
  | .error _ => .ok ()

/-- aio_pika `ProcessContext.__aexit__`: on an exceptional exit the message
is rejected (against `requeue`/`reject_on_redelivered`) unless it was
already processed and `ignore_processed` holds; on a clean exit it is
acknowledged unless `ignore_processed` holds and it was already
processed. -/
def processContextExit (excRaised requeue rejectOnRedelivered ignoreProcessed
    processed redelivered channelClosed : Bool) : List AckAction :=
  if excRaised then
    if !ignoreProcessed || !processed then
      if rejectOnRedelivered && redelivered then
        if !channelClosed then [AckAction.reject false] else []
      else if !channelClosed then [AckAction.reject requeue] else []
    else []
  else
    if ignoreProcessed && processed then [] else [AckAction.ack]

/-- One per-delivery step of the `consume_messages` loop:
`async with message.process(ignore_processed=auto_ack)` around the caught
block.  The context keyword arguments `requeue` and `reject_on_redelivered`
are left at their `False` defaults, the callback never processes the
message manually, and an exception would escape the block only if the
`except Exception` handler did not catch it. -/
def consumeStep (autoAck : Bool) (outcome : CallbackOutcome) :
    Except PyError (List AckAction) :=
  match withBlockBodyCaught outcome with
  | .error e => .error e
  | .ok () =>
    .ok (processContextExit false false false autoAck false false false)

/-- The `async for message in queue_iter` loop over a finite prefix of
deliveries: any exception escaping a step would abort the iteration. -/
def consumeLoop (autoAck : Bool) : List CallbackOutcome →
    Except PyError (List (List AckAction))
  | [] => .ok []
  | d :: ds => do
    let acts ← consumeStep autoAck d
    let rest ← consumeLoop autoAck ds
    return acts :: rest

/-- The `/health` endpoint of publisher.py: reports `"connected"` exactly
when `rabbitmq_manager.connection` is truthy, which for an aio_pika
connection object means not `None`. -/
def health_check (m : Manager) : String × String :=
  ("healthy", if m.connection.isSome then "connected" else "disconnected")

/-- `consume_messages(queue_name, callback, auto_ack)`: declares the queue
with default flags, then runs the per-delivery loop. -/
def consume_messages (m : Manager) (queueName : String) (autoAck : Bool)
    (deliveries : List CallbackOutcome) :
    Except PyError (List AmqpOp × List (List AckAction)) := do
  let t ← declare_queue m queueName true false false
  let acks ← consumeLoop autoAck deliveries
  return (t, acks)

/-- The manager right after a successful `connect()`. -/
def connectedM : Manager := (connect Manager.init).1

/-- No `closeChannel` occurs at or after the first `closeConnection`. -/
def chanBeforeConn (t : List AmqpOp) : Bool :=
  (t.dropWhile (fun op => !(op == AmqpOp.closeConnection))).all
    (fun op => !(op == AmqpOp.closeChannel))

/-- Every queue declaration in the trace requests an exclusive auto-delete
queue. -/
def queueDeclaresExclusiveAutoDelete (ops : List AmqpOp) : Bool :=
  ops.all (fun op =>
    match op with
    | AmqpOp.declareQueue _ _ e a => e && a
    | _ => true)

/-- A remainder that cannot extend a number token: empty, or starting with
a character that is neither a digit nor `.`, `e`, `E`.  Every context a
rendered number ends in (before `,`, `]`, `}`, or the end of the document)
satisfies it. -/
def numStop : List Char → Bool
  | [] => true
  | c :: _ => !(isDigitChar c || c = '.' || c = 'e' || c = 'E')

/-! ## Theorems -/

/-- C1 (counterexample): with `auto_ack=False` a delivery whose callback
raises is NOT left unacknowledged and NOT rejected — the exception is
caught inside the `message.process` context, which therefore exits cleanly
and acknowledges the delivery. -/
theorem consume_failure_reject_refuted :
    consumeStep false CallbackOutcome.raises = Except.ok [AckAction.ack]
    ∧ AckAction.ack ∈ [AckAction.ack]
    ∧ AckAction.reject false ∉ ([AckAction.ack] : List AckAction) :=
  ⟨rfl, by decide, by decide⟩

/-- C1 (amended): for a delivery whose callback raises, `consume_messages`
with `auto_ack=False` acknowledges the delivery (the `try`/`except` inside
the processing context swallows the exception, so the context exits
cleanly and acks); no reject is issued and the message is not requeued —
the reject call in the source is commented out. -/
theorem consume_failure_acked_not_rejected :
    consumeStep false CallbackOutcome.raises = Except.ok [AckAction.ack] := rfl

/-- C2 (counterexample): with `auto_ack=True` the ack/reject step is not
skipped — the delivery is still explicitly acknowledged. -/
theorem consume_autoack_skip_refuted :
    consumeStep true CallbackOutcome.ok = Except.ok [AckAction.ack]
    ∧ ([AckAction.ack] : List AckAction) ≠ [] :=
  ⟨rfl, by decide⟩

/-- C2 (amended): `auto_ack` is passed to the processing context as
`ignore_processed`, which only suppresses the ack when the callback already
processed the message itself; this callback never does, so every delivery
is still acknowledged after processing, whatever the callback outcome. -/
theorem consume_autoack_still_acks (outcome : CallbackOutcome) :
    consumeStep true outcome = Except.ok [AckAction.ack] := by
  cases outcome <;> rfl

/-- C3 (counterexample): two `publish_message` calls to the same exchange
name within one process lifetime declare the exchange twice, not at most
once — there is no per-name cache. -/
theorem publish_declare_cache_refuted :
    (publishSeq connectedM ("books") ("book.created")
        [Json.null, Json.null]).toOption.map
      (fun tr => countDeclares tr ("books")) = some 2
    ∧ ¬ (2 ≤ 1) :=
  ⟨rfl, by omega⟩

/-- C3 (amended): `publish_message` issues a `declare_exchange` round trip
on every single call: a sequence of k publishes to one exchange name
declares that exchange exactly k times. -/
theorem publish_declares_on_every_call (m : Manager) (ex rk : String)
    (bodies : List Json) (h : m.channel.isSome) :
    ∃ tr, publishSeq m ex rk bodies = .ok tr
      ∧ countDeclares tr ex = bodies.length := by
  obtain ⟨ch, hch⟩ := Option.isSome_iff_exists.mp h
  induction bodies with
  | nil => exact ⟨[], rfl, rfl⟩
  | cons b bs ih =>
    obtain ⟨tr, htr, hcount⟩ := ih
    refine ⟨[AmqpOp.declareExchange ex ExchangeType.topic true,
      AmqpOp.publish ex rk (publishBody b) 2 5 ("application/json")] ++ tr, ?_, ?_⟩
    · simp only [publishSeq, publish_message, declare_exchange, hch, htr]
      rfl
    · simp only [countDeclares] at hcount ⊢
      simp [List.countP_append, List.countP_cons, hcount]
      try omega

/-- Witness for `publish_declares_on_every_call` at the connected manager
and two publishes. -/
theorem publish_declares_on_every_call_witness :
    connectedM.channel.isSome = true
    ∧ ∃ tr, publishSeq connectedM ("books") ("book.created")
          [Json.null, Json.null] = .ok tr
        ∧ countDeclares tr ("books") = 2 :=
  ⟨rfl, publish_declares_on_every_call connectedM ("books") ("book.created")
    [Json.null, Json.null] rfl⟩

/-- C5 (counterexample): a publish attempted while the manager is
disconnected fails with the builtin `AttributeError` raised by the
attribute access on the `None` channel, not with a typed `PublishError`
(the code defines no such class). -/
theorem publish_typed_error_refuted :
    publish_message Manager.init ("books") ("book.created") Json.null 5 2
      = Except.error PyError.attributeError
    ∧ PyError.attributeError ≠ PyError.publishError :=
  ⟨rfl, by decide⟩

/-- C5 (amended): `publish_message` either succeeds with `True` after a
declare-and-publish trace, or — when no channel was established — fails
with the untyped builtin `AttributeError`; no typed `PublishError` exists
anywhere in the code. -/
theorem publish_error_characterization (m : Manager) (ex rk : String)
    (b : Json) (p dm : Nat) :
    publish_message m ex rk b p dm =
      match m.channel with
      | none => Except.error PyError.attributeError
      | some _ => Except.ok (true,
          [AmqpOp.declareExchange ex ExchangeType.topic true,
           AmqpOp.publish ex rk (publishBody b) dm p ("application/json")]) := by
  rcases m with ⟨conn, chan⟩
  cases chan <;> rfl

/-- C6 (counterexample): `declare_queue("", durable=True, exclusive=False,
auto_delete=False)` declares the broker-named queue with exactly the
caller's flags — not exclusive, not auto-delete — refuting that an empty
name forces `exclusive`+`auto_delete`. -/
theorem declare_queue_empty_name_refuted :
    declare_queue connectedM ("") true false false
      = Except.ok [AmqpOp.declareQueue ("") true false false]
    ∧ queueDeclaresExclusiveAutoDelete
        [AmqpOp.declareQueue ("") true false false] = false :=
  ⟨rfl, by decide⟩

/-- C6 (amended): `declare_queue` passes the supplied
durable/exclusive/auto-delete flags through unchanged for every queue name;
an empty name merely requests a broker-assigned name and is not
special-cased. -/
theorem declare_queue_flags_pass_through (m : Manager) (d e a : Bool) :
    declare_queue m ("") d e a =
      match m.channel with
      | none => Except.error PyError.attributeError
      | some _ => Except.ok [AmqpOp.declareQueue ("") d e a] := by
  rcases m with ⟨conn, chan⟩
  cases chan <;> rfl

/-- C7: a callback exception never terminates the consume loop and never
propagates out of it: every per-delivery step succeeds (the exception is
caught inside the step) and the loop processes every delivery. -/
theorem consume_loop_never_crashes (autoAck : Bool)
    (ds : List CallbackOutcome) :
    ∃ acksList, consumeLoop autoAck ds = .ok acksList
      ∧ acksList.length = ds.length := by
  induction ds with
  | nil => exact ⟨[], rfl, rfl⟩
  | cons d ds ih =>
    obtain ⟨l, hl, hlen⟩ := ih
    have hstep : consumeStep autoAck d
        = .ok (processContextExit false false false autoAck false false false) := by
      cases d <;> rfl
    refine ⟨processContextExit false false false autoAck false false false :: l, ?_, ?_⟩
    · simp only [consumeLoop, hstep, hl]
      rfl
    · simp [hlen]

/-- C8: `disconnect()` is idempotent — on a manager that never connected it
does nothing and returns without error, a second `disconnect()` right after
a first one sends nothing to the broker — and in every state any channel
close it sends precedes any connection close. -/
theorem disconnect_idempotent_channel_first (m : Manager) :
    (disconnect (disconnect m).1).2 = []
    ∧ disconnect Manager.init = (Manager.init, [])
    ∧ chanBeforeConn (disconnect m).2 = true := by
  rcases m with ⟨conn, chan⟩
  rcases conn with _ | ⟨⟨b⟩⟩ <;> rcases chan with _ | ⟨⟨c⟩⟩ <;>
    first
    | decide
    | (cases b <;> cases c <;> decide)
    | (cases b <;> decide)
    | (cases c <;> decide)

/-- C9: `bind_queue` always declares the exchange with the fixed defaults
`type=topic, durable=True` — there is no way to pass another type — and in
particular binding `notifications_queue_1` to the fanout exchange
`notifications` (as subscriber.py does) issues a topic-type declaration. -/
theorem bind_queue_declares_topic_always (m : Manager) (q ex rk : String) :
    (bind_queue m q ex rk =
      match m.channel with
      | none => Except.error PyError.attributeError
      | some _ => Except.ok [AmqpOp.declareQueue q true false false,
          AmqpOp.declareExchange ex ExchangeType.topic true,
          AmqpOp.bindQueue q ex rk])
    ∧ (bind_queue connectedM ("notifications_queue_1") ("notifications")
          ("")).toOption
        = some [AmqpOp.declareQueue ("notifications_queue_1") true false false,
            AmqpOp.declareExchange ("notifications") ExchangeType.topic true,
            AmqpOp.bindQueue ("notifications_queue_1") ("notifications") ("")] := by
  constructor
  · rcases m with ⟨conn, chan⟩
    cases chan <;> rfl
  · rfl

/-- C10: `disconnect()` never resets `self.connection` or `self.channel` to
`None`, so the `/health` endpoint's `connection`-truthiness test reports the
same status after a disconnect as before it — and a manager that connected
once reports `"connected"` even after `disconnect()` completed. -/
theorem disconnect_leaves_fields_health_connected (m : Manager) :
    ((disconnect m).1.connection.isSome = m.connection.isSome)
    ∧ ((disconnect m).1.channel.isSome = m.channel.isSome)
    ∧ health_check (disconnect m).1 = health_check m
    ∧ health_check (disconnect (connect m).1).1 = ("healthy", "connected") := by
  rcases m with ⟨conn, chan⟩
  rcases conn with _ | ⟨⟨b⟩⟩ <;> rcases chan with _ | ⟨⟨c⟩⟩ <;>
    first
    | decide
    | (cases b <;> cases c <;> decide)
    | (cases b <;> decide)
    | (cases c <;> decide)

/-! ### Digit characters -/

/-- One-step unfolding of `natChars`. -/
theorem natChars_def (n : Nat) (acc : List Char) :
    natChars n acc = if n < 10 then digitChar n :: acc
      else natChars (n / 10) (digitChar n :: acc) := by
  conv_lhs => rw [natChars]

/-- `digitChar` only looks at the last decimal digit. -/
theorem digitChar_mod (d : Nat) : digitChar d = digitChar (d % 10) := by
  have h : d % 10 % 10 = d % 10 := by omega
  unfold digitChar
  rw [h]

/-- Value and digit-ness of `digitChar` below 10. -/
theorem digitChar_spec (k : Nat) (h : k < 10) :
    (digitChar k).toNat = 48 + k ∧ isDigitChar (digitChar k) = true := by
  interval_cases k <;> exact ⟨by decide, by decide⟩

/-- The code point of `digitChar`. -/
theorem digitChar_toNat (d : Nat) : (digitChar d).toNat = 48 + d % 10 := by
  rw [digitChar_mod]
  exact (digitChar_spec _ (by omega)).1

/-- `digitChar` is a decimal digit character. -/
theorem isDigitChar_digitChar (d : Nat) : isDigitChar (digitChar d) = true := by
  rw [digitChar_mod]
  exact (digitChar_spec _ (by omega)).2

/-- `digitVal` inverts `digitChar`. -/
theorem digitVal_digitChar (d : Nat) : digitVal (digitChar d) = d % 10 := by
  unfold digitVal
  rw [digitChar_toNat]
  omega

/-- A nonzero digit renders as a nonzero digit character. -/
theorem digitChar_ne_zero (d : Nat) (h : d % 10 ≠ 0) : digitChar d ≠ '0' := by
  intro he
  have hv := digitChar_toNat d
  rw [he] at hv
  have h0 : ('0' : Char).toNat = 48 := rfl
  omega

/-- Code-point bounds of a digit character. -/
theorem isDigitChar_toNat (c : Char) (h : isDigitChar c = true) :
    48 ≤ c.toNat ∧ c.toNat ≤ 57 := by
  unfold isDigitChar at h
  rw [Bool.and_eq_true] at h
  exact ⟨of_decide_eq_true h.1, of_decide_eq_true h.2⟩

/-! ### Digit runs and their values -/

/-- The accumulator of `natChars` just rides along on the right. -/
theorem natChars_acc (n : Nat) : ∀ acc, natChars n acc = natChars n [] ++ acc := by
  induction n using Nat.strong_induction_on with
  | _ n ih =>
    intro acc
    by_cases h : n < 10
    · rw [natChars_def, if_pos h]
      conv_rhs => rw [natChars_def]
      rw [if_pos h]
      rfl
    · rw [natChars_def, if_neg h, ih (n / 10) (by omega) (digitChar n :: acc)]
      conv_rhs => rw [natChars_def]
      rw [if_neg h, ih (n / 10) (by omega) (digitChar n :: [])]
      simp

/-- Every character `natChars` emits is a digit. -/
theorem natChars_all_digits (n : Nat) : ∀ c ∈ natChars n [], isDigitChar c = true := by
  induction n using Nat.strong_induction_on with
  | _ n ih =>
    rw [natChars_def]
    by_cases h : n < 10
    · rw [if_pos h]
      intro c hc
      rw [List.mem_singleton] at hc
      subst hc
      exact isDigitChar_digitChar n
    · rw [if_neg h, natChars_acc]
      intro c hc
      rw [List.mem_append] at hc
      rcases hc with hc | hc
      · exact ih (n / 10) (by omega) c hc
      · rw [List.mem_singleton] at hc
        subst hc
        exact isDigitChar_digitChar n

/-- `natChars` output starts with a digit, nonzero when `0 < n`. -/
theorem natChars_head (n : Nat) :
    ∃ c t, natChars n [] = c :: t ∧ isDigitChar c = true ∧ (0 < n → c ≠ '0') := by
  induction n using Nat.strong_induction_on with
  | _ n ih =>
    rw [natChars_def]
    by_cases h : n < 10
    · rw [if_pos h]
      refine ⟨digitChar n, [], rfl, isDigitChar_digitChar n, fun hn => ?_⟩
      exact digitChar_ne_zero n (by omega)
    · obtain ⟨c, t, hct, hd, hz⟩ := ih (n / 10) (by omega)
      rw [if_neg h, natChars_acc, hct]
      exact ⟨c, t ++ [digitChar n], rfl, hd, fun _ => hz (by omega)⟩

/-- The rendered integer part always passes the leading-zero rule. -/
theorem intPartOk_natChars (n : Nat) : intPartOk (natChars n []) = true := by
  rw [natChars_def]
  by_cases h : n < 10
  · rw [if_pos h]
    rfl
  · rw [if_neg h, natChars_acc]
    obtain ⟨c, t, hct, hd, hz⟩ := natChars_head (n / 10)
    rw [hct]
    have hc0 : c ≠ '0' := hz (by omega)
    cases t with
    | nil => simp [intPartOk, hc0]
    | cons x xs => simp [intPartOk, hc0]

/-- Folding digits from any accumulator. -/
theorem digitsVal_go (ys : List Char) : ∀ a : Nat,
    ys.foldl (fun x c => x * 10 + digitVal c) a = a * 10 ^ ys.length + digitsVal ys := by
  induction ys with
  | nil => intro a; simp [digitsVal]
  | cons c ys ih =>
    intro a
    simp only [List.foldl_cons, List.length_cons, digitsVal]
    rw [ih (a * 10 + digitVal c), ih (0 * 10 + digitVal c)]
    ring

/-- The value of a concatenated digit run. -/
theorem digitsVal_append (xs ys : List Char) :
    digitsVal (xs ++ ys) = digitsVal xs * 10 ^ ys.length + digitsVal ys := by
  unfold digitsVal
  rw [List.foldl_append]
  exact digitsVal_go ys _

/-- `digitsVal` inverts `natChars`. -/
theorem digitsVal_natChars (n : Nat) : digitsVal (natChars n []) = n := by
  induction n using Nat.strong_induction_on with
  | _ n ih =>
    rw [natChars_def]
    by_cases h : n < 10
    · rw [if_pos h]
      unfold digitsVal
      simp [digitVal_digitChar]
      omega
    · rw [if_neg h, natChars_acc, digitsVal_append, ih (n / 10) (by omega)]
      unfold digitsVal
      simp [digitVal_digitChar]
      omega

/-- `natCharsPad` emits exactly `w` characters. -/
theorem natCharsPad_length (w : Nat) : ∀ n, (natCharsPad w n).length = w := by
  induction w with
  | zero => intro n; rfl
  | succ w ih => intro n; simp [natCharsPad, ih]

/-- Every character `natCharsPad` emits is a digit. -/
theorem natCharsPad_digits (w : Nat) : ∀ n, ∀ c ∈ natCharsPad w n, isDigitChar c = true := by
  induction w with
  | zero => intro n c hc; simp [natCharsPad] at hc
  | succ w ih =>
    intro n c hc
    simp only [natCharsPad, List.mem_append] at hc
    rcases hc with hc | hc
    · exact ih _ c hc
    · rw [List.mem_singleton] at hc
      subst hc
      exact isDigitChar_digitChar n

/-- `digitsVal` inverts `natCharsPad` up to the width. -/
theorem digitsVal_natCharsPad (w : Nat) : ∀ n, digitsVal (natCharsPad w n) = n % 10 ^ w := by
  induction w with
  | zero => intro n; simp [natCharsPad, digitsVal, Nat.mod_one]
  | succ w ih =>
    intro n
    simp only [natCharsPad]
    rw [digitsVal_append, ih (n / 10)]
    have hv : digitsVal [digitChar n] = n % 10 := by
      unfold digitsVal
      simp [digitVal_digitChar]
    have hl : (List.length [digitChar n]) = 1 := rfl
    rw [hv, hl, pow_one]
    have hp : (10 : Nat) ^ (w + 1) = 10 * 10 ^ w := by ring
    rw [hp, Nat.mod_mul]
    omega

/-- `takeDigits` does not start on a non-digit. -/
theorem takeDigits_nonDigit (c : Char) (t : List Char) (h : isDigitChar c = false) :
    takeDigits (c :: t) = ([], c :: t) := by
  simp [takeDigits, h]

/-- The head facts packed in `numStop`. -/
theorem numStop_head (c : Char) (t : List Char) (h : numStop (c :: t) = true) :
    isDigitChar c = false ∧ c ≠ '.' ∧ c ≠ 'e' ∧ c ≠ 'E' := by
  simp only [numStop, Bool.not_eq_true'] at h
  simp only [Bool.or_eq_false_iff, decide_eq_false_iff_not] at h
  exact ⟨h.1.1.1, h.1.1.2, h.1.2, h.2⟩

/-- `takeDigits` takes nothing from a `numStop` remainder. -/
theorem takeDigits_stop (cs : List Char) (h : numStop cs = true) :
    takeDigits cs = ([], cs) := by
  cases cs with
  | nil => rfl
  | cons c t => exact takeDigits_nonDigit c t (numStop_head c t h).1

/-- `takeDigits` consumes exactly a digit run in front of a stopping
remainder. -/
theorem takeDigits_run (ds : List Char) (hds : ∀ c ∈ ds, isDigitChar c = true) :
    ∀ rest, takeDigits rest = ([], rest) → takeDigits (ds ++ rest) = (ds, rest) := by
  induction ds with
  | nil =>
    intro rest h
    simpa using h
  | cons c t ih =>
    intro rest h
    have hc : isDigitChar c = true := hds c (List.mem_cons_self ..)
    have ht := ih (fun x hx => hds x (List.mem_cons_of_mem _ hx)) rest h
    simp [takeDigits, hc, ht]

/-- The number codec round trip: `parseNumber` recovers exactly the decimal
`numChars` rendered, leaving a `numStop` remainder untouched. -/
theorem parseNumber_numChars (m : Int) (f : Nat) (rest : List Char)
    (hrest : numStop rest = true) :
    parseNumber (numChars m f ++ rest) = some ((m, f), rest) := by
  have hstop := takeDigits_stop rest hrest
  by_cases hf : f = 0
  · subst hf
    by_cases hm : m < 0
    · have harg : numChars m 0 ++ rest = '-' :: (natChars m.natAbs [] ++ rest) := by
        simp [numChars, intChars, hm]
      rw [harg]
      simp only [parseNumber]
      rw [takeDigits_run _ (natChars_all_digits _) rest hstop]
      rw [intPartOk_natChars]
      cases rest with
      | nil =>
        simp [digitsVal_natChars]
        simp only [Int.abs_eq_natAbs]
        omega
      | cons c t =>
        obtain ⟨hcd, hcdot, hce, hcE⟩ := numStop_head c t hrest
        simp [hcdot, hce, hcE, digitsVal_natChars]
        simp only [Int.abs_eq_natAbs]
        omega
    · obtain ⟨c0, t0, hct, hc0d, _⟩ := natChars_head m.natAbs
      have hne : c0 ≠ '-' := fun he => by subst he; exact absurd hc0d (by decide)
      have harg : numChars m 0 ++ rest = c0 :: (t0 ++ rest) := by
        simp [numChars, intChars, hm, hct]
      have hrun : takeDigits (c0 :: (t0 ++ rest)) = (c0 :: t0, rest) := by
        have h2 := takeDigits_run (natChars m.natAbs []) (natChars_all_digits _) rest hstop
        rw [hct] at h2
        simpa using h2
      have hok : intPartOk (c0 :: t0) = true := by
        rw [← hct]
        exact intPartOk_natChars _
      have hdig : digitsVal (c0 :: t0) = m.natAbs := by
        rw [← hct]
        exact digitsVal_natChars _
      rw [harg]
      simp only [parseNumber]
      cases rest with
      | nil =>
        simp only [List.append_nil] at hrun
        simp [hne, hrun, hok, hdig]
        omega
      | cons c t =>
        obtain ⟨hcd, hcdot, hce, hcE⟩ := numStop_head c t hrest
        simp [hne, hrun, hok, hdig, hcdot, hce, hcE]
        omega
  · have hpd := natCharsPad_digits f (m.natAbs % 10 ^ f)
    have hfrun := takeDigits_run _ hpd rest hstop
    have hpne : natCharsPad f (m.natAbs % 10 ^ f) ≠ [] := by
      intro h0
      have hlen := natCharsPad_length f (m.natAbs % 10 ^ f)
      rw [h0] at hlen
      simp at hlen
      omega
    have hddot : takeDigits ('.' :: (natCharsPad f (m.natAbs % 10 ^ f) ++ rest))
        = ([], '.' :: (natCharsPad f (m.natAbs % 10 ^ f) ++ rest)) :=
      takeDigits_nonDigit _ _ (by decide)
    have hdig : digitsVal (natChars (m.natAbs / 10 ^ f) [] ++ natCharsPad f (m.natAbs % 10 ^ f))
        = m.natAbs := by
      rw [digitsVal_append, digitsVal_natChars, digitsVal_natCharsPad, natCharsPad_length]
      rw [Nat.mod_mod_of_dvd _ (dvd_refl _)]
      rw [mul_comm, Nat.div_add_mod]
    have hnt : ¬ ((0 : Int) ≤ 0 - (f : Nat)) := by omega
    have hft : (-((0 : Int) - (f : Nat))).toNat = f := by omega
    by_cases hm : m < 0
    · have harg : numChars m f ++ rest
          = '-' :: (natChars (m.natAbs / 10 ^ f) []
            ++ ('.' :: (natCharsPad f (m.natAbs % 10 ^ f) ++ rest))) := by
        simp [numChars, hf, hm]
      rw [harg]
      simp only [parseNumber]
      rw [takeDigits_run _ (natChars_all_digits _) _ hddot]
      rw [intPartOk_natChars]
      simp [hfrun, hpne, natCharsPad_length]
      cases rest with
      | nil =>
        simp [hdig, hnt, hft, hf, natCharsPad_length]
        simp only [Int.abs_eq_natAbs]
        omega
      | cons c t =>
        obtain ⟨hcd, hcdot, hce, hcE⟩ := numStop_head c t hrest
        simp [hdig, hnt, hft, hf, natCharsPad_length, hcdot, hce, hcE]
        simp only [Int.abs_eq_natAbs]
        omega
    · obtain ⟨c0, t0, hct, hc0d, _⟩ := natChars_head (m.natAbs / 10 ^ f)
      have hne : c0 ≠ '-' := fun he => by subst he; exact absurd hc0d (by decide)
      have harg : numChars m f ++ rest
          = c0 :: (t0 ++ ('.' :: (natCharsPad f (m.natAbs % 10 ^ f) ++ rest))) := by
        simp [numChars, hf, hm, hct]
      have hrun : takeDigits (c0 :: (t0 ++ ('.' :: (natCharsPad f (m.natAbs % 10 ^ f) ++ rest))))
          = (c0 :: t0, '.' :: (natCharsPad f (m.natAbs % 10 ^ f) ++ rest)) := by
        have h2 := takeDigits_run (natChars (m.natAbs / 10 ^ f) [])
          (natChars_all_digits _) _ hddot
        rw [hct] at h2
        simpa using h2
      have hok : intPartOk (c0 :: t0) = true := by
        rw [← hct]
        exact intPartOk_natChars _
      have hdig2 : digitsVal (c0 :: (t0 ++ natCharsPad f (m.natAbs % 10 ^ f))) = m.natAbs := by
        rw [← List.cons_append, ← hct]
        exact hdig
      rw [harg]
      simp only [parseNumber]
      cases rest with
      | nil =>
        simp only [List.append_nil] at hrun hfrun
        simp [hne, hrun, hok, hfrun, hpne, hdig2, hnt, hft, hf, natCharsPad_length]
        try simp only [Int.abs_eq_natAbs]
        omega
      | cons c t =>
        obtain ⟨hcd, hcdot, hce, hcE⟩ := numStop_head c t hrest
        simp [hne, hrun, hok, hfrun, hpne, hdig2, hnt, hft, hf, natCharsPad_length,
          hcdot, hce, hcE]
        try simp only [Int.abs_eq_natAbs]
        omega

/-! ### String escapes -/

/-- `hexChar` only looks at the low hexadecimal digit. -/
theorem hexChar_mod (d : Nat) : hexChar d = hexChar (d % 16) := by
  have h : d % 16 % 16 = d % 16 := by omega
  unfold hexChar
  rw [h]

/-- `hexVal` inverts `hexChar` below 16. -/
theorem hexVal_hexChar_spec (k : Nat) (h : k < 16) : hexVal (hexChar k) = some k := by
  interval_cases k <;> decide

/-- `hexVal` inverts `hexChar`. -/
theorem hexVal_hexChar (d : Nat) : hexVal (hexChar d) = some (d % 16) := by
  rw [hexChar_mod]
  exact hexVal_hexChar_spec _ (by omega)

/-- `hex4` recovers the value `uEscape` spelled out. -/
theorem hex4_uEscape (n : Nat) (h : n < 65536) :
    hex4 (hexChar (n / 4096)) (hexChar (n / 256)) (hexChar (n / 16)) (hexChar n)
      = some n := by
  simp only [hex4, hexVal_hexChar]
  congr 1
  omega

/-- Scalar-value bounds every `Char` satisfies: below `0x110000` and never a
surrogate. -/
theorem char_scalar_bounds (c : Char) :
    c.toNat < 1114112 ∧ ¬ (55296 ≤ c.toNat ∧ c.toNat ≤ 57343) := by
  have h := c.valid
  have h2 : c.toNat = c.val.toNat := rfl
  rcases h with h | h <;> exact ⟨by omega, by omega⟩


/-- `scanString` at a closing quote. -/
theorem scanString_quote (acc rest : List Char) :
    scanString acc ('"' :: rest) = some (acc.reverse, rest) := by
  conv_lhs => unfold scanString
  simp

/-- One-step unfolding of `scanString` at a `\u` escape. -/
theorem scanString_u (acc : List Char) (a b c d : Char) (rest : List Char) :
    scanString acc ('\\' :: 'u' :: a :: b :: c :: d :: rest) =
      (match hex4 a b c d with
      | none => none
      | some n =>
        if 55296 ≤ n ∧ n ≤ 56319 then
          match rest with
          | '\\' :: 'u' :: a2 :: b2 :: c2 :: d2 :: rest3 =>
            match hex4 a2 b2 c2 d2 with
            | none => none
            | some n2 =>
              if 56320 ≤ n2 ∧ n2 ≤ 57343 then
                scanString
                  (Char.ofNat (65536 + (n - 55296) * 1024 + (n2 - 56320)) :: acc) rest3
              else
                scanString (Char.ofNat n :: acc)
                  ('\\' :: 'u' :: a2 :: b2 :: c2 :: d2 :: rest3)
          | other => scanString (Char.ofNat n :: acc) other
        else scanString (Char.ofNat n :: acc) rest) := by
  conv_lhs => unfold scanString
  rw [if_neg (show ¬ ('\\' : Char) = '"' by decide)]
  rw [if_pos (show ('\\' : Char) = '\\' from rfl)]
  rfl

/-- `scanString` through a non-surrogate `\u` escape. -/
theorem scanString_u_single (acc : List Char) (a b c d : Char) (rest : List Char)
    (n : Nat) (ha : hex4 a b c d = some n) (hns : ¬ (55296 ≤ n ∧ n ≤ 56319)) :
    scanString acc ('\\' :: 'u' :: a :: b :: c :: d :: rest)
      = scanString (Char.ofNat n :: acc) rest := by
  simp [scanString_u, ha, hns]

/-- `scanString` through a surrogate-pair escape. -/
theorem scanString_u_pair (acc : List Char) (a b c d a2 b2 c2 d2 : Char)
    (rest : List Char) (n n2 : Nat)
    (ha : hex4 a b c d = some n) (hhi : 55296 ≤ n ∧ n ≤ 56319)
    (ha2 : hex4 a2 b2 c2 d2 = some n2) (hlo : 56320 ≤ n2 ∧ n2 ≤ 57343) :
    scanString acc
        ('\\' :: 'u' :: a :: b :: c :: d :: ('\\' :: 'u' :: a2 :: b2 :: c2 :: d2 :: rest))
      = scanString (Char.ofNat (65536 + (n - 55296) * 1024 + (n2 - 56320)) :: acc) rest := by
  simp [scanString_u, ha, ha2, hhi, hlo]

/-- `scanString` past an ordinary unescaped character. -/
theorem scanString_plain (acc : List Char) (c : Char) (rest : List Char)
    (hq : c ≠ '"') (hb : c ≠ '\\') (hc : ¬ c.toNat < 32) :
    scanString acc (c :: rest) = scanString (c :: acc) rest := by
  conv_lhs => unfold scanString
  rw [if_neg hq, if_neg hb, if_neg hc]

/-- Undoing one escaped character: `scanString` consumes exactly
`escapeChar c` and accumulates `c`. -/
theorem scanString_escape (c : Char) (acc rest : List Char) :
    scanString acc (escapeChar c ++ rest) = scanString (c :: acc) rest := by
  obtain ⟨hub, hsur⟩ := char_scalar_bounds c
  by_cases h1 : c = '\\'
  · subst h1
    rw [show escapeChar '\\' = ['\\', '\\'] from by decide]
    simp only [List.cons_append, List.nil_append]
    conv_lhs => unfold scanString
    rw [if_neg (show ¬ ('\\' : Char) = '"' by decide),
      if_pos (show ('\\' : Char) = '\\' from rfl)]
    rfl
  · by_cases h2 : c = '"'
    · subst h2
      rw [show escapeChar '"' = ['\\', '"'] from by decide]
      simp only [List.cons_append, List.nil_append]
      conv_lhs => unfold scanString
      rw [if_neg (show ¬ ('\\' : Char) = '"' by decide),
        if_pos (show ('\\' : Char) = '\\' from rfl)]
      rfl
    · by_cases h3 : c = '\n'
      · subst h3
        rw [show escapeChar '\n' = ['\\', 'n'] from by decide]
        simp only [List.cons_append, List.nil_append]
        conv_lhs => unfold scanString
        rw [if_neg (show ¬ ('\\' : Char) = '"' by decide),
          if_pos (show ('\\' : Char) = '\\' from rfl)]
        rfl
      · by_cases h4 : c = '\r'
        · subst h4
          rw [show escapeChar '\r' = ['\\', 'r'] from by decide]
          simp only [List.cons_append, List.nil_append]
          conv_lhs => unfold scanString
          rw [if_neg (show ¬ ('\\' : Char) = '"' by decide),
            if_pos (show ('\\' : Char) = '\\' from rfl)]
          rfl
        · by_cases h5 : c = '\t'
          · subst h5
            rw [show escapeChar '\t' = ['\\', 't'] from by decide]
            simp only [List.cons_append, List.nil_append]
            conv_lhs => unfold scanString
            rw [if_neg (show ¬ ('\\' : Char) = '"' by decide),
              if_pos (show ('\\' : Char) = '\\' from rfl)]
            rfl
          · by_cases h6 : c.toNat = 8
            · have hc : c = Char.ofNat 8 := by rw [← Char.ofNat_toNat c, h6]
              subst hc
              rw [show escapeChar (Char.ofNat 8) = ['\\', 'b'] from by decide]
              simp only [List.cons_append, List.nil_append]
              conv_lhs => unfold scanString
              rw [if_neg (show ¬ ('\\' : Char) = '"' by decide),
                if_pos (show ('\\' : Char) = '\\' from rfl)]
              rfl
            · by_cases h7 : c.toNat = 12
              · have hc : c = Char.ofNat 12 := by rw [← Char.ofNat_toNat c, h7]
                subst hc
                rw [show escapeChar (Char.ofNat 12) = ['\\', 'f'] from by decide]
                simp only [List.cons_append, List.nil_append]
                conv_lhs => unfold scanString
                rw [if_neg (show ¬ ('\\' : Char) = '"' by decide),
                  if_pos (show ('\\' : Char) = '\\' from rfl)]
                rfl
              · by_cases h8 : c.toNat < 32
                · have harg : escapeChar c ++ rest
                      = '\\' :: 'u' :: hexChar (c.toNat / 4096) :: hexChar (c.toNat / 256)
                        :: hexChar (c.toNat / 16) :: hexChar c.toNat :: rest := by
                    simp [escapeChar, uEscape, h1, h2, h3, h4, h5, h6, h7, h8]
                  rw [harg,
                    scanString_u_single _ _ _ _ _ _ _
                      (hex4_uEscape c.toNat (by omega)) (by omega),
                    Char.ofNat_toNat]
                · by_cases h9 : c.toNat ≤ 126
                  · have harg : escapeChar c ++ rest = c :: rest := by
                      simp [escapeChar, h1, h2, h3, h4, h5, h6, h7, h8, h9]
                    rw [harg, scanString_plain acc c rest h2 h1 h8]
                  · by_cases h10 : c.toNat < 65536
                    · have harg : escapeChar c ++ rest
                          = '\\' :: 'u' :: hexChar (c.toNat / 4096) :: hexChar (c.toNat / 256)
                            :: hexChar (c.toNat / 16) :: hexChar c.toNat :: rest := by
                        simp [escapeChar, uEscape, h1, h2, h3, h4, h5, h6, h7, h8, h9, h10]
                      rw [harg,
                        scanString_u_single _ _ _ _ _ _ _
                          (hex4_uEscape c.toNat (by omega)) (by omega),
                        Char.ofNat_toNat]
                    · have harg : escapeChar c ++ rest
                          = '\\' :: 'u'
                            :: hexChar ((55296 + (c.toNat - 65536) / 1024) / 4096)
                            :: hexChar ((55296 + (c.toNat - 65536) / 1024) / 256)
                            :: hexChar ((55296 + (c.toNat - 65536) / 1024) / 16)
                            :: hexChar (55296 + (c.toNat - 65536) / 1024)
                            :: ('\\' :: 'u'
                              :: hexChar ((56320 + (c.toNat - 65536) % 1024) / 4096)
                              :: hexChar ((56320 + (c.toNat - 65536) % 1024) / 256)
                              :: hexChar ((56320 + (c.toNat - 65536) % 1024) / 16)
                              :: hexChar (56320 + (c.toNat - 65536) % 1024) :: rest) := by
                        simp [escapeChar, uEscape, h1, h2, h3, h4, h5, h6, h7, h8, h9, h10]
                      rw [harg,
                        scanString_u_pair _ _ _ _ _ _ _ _ _ _ _ _
                          (hex4_uEscape (55296 + (c.toNat - 65536) / 1024) (by omega))
                          (by omega)
                          (hex4_uEscape (56320 + (c.toNat - 65536) % 1024) (by omega))
                          (by omega),
                        show 65536 + (55296 + (c.toNat - 65536) / 1024 - 55296) * 1024
                            + (56320 + (c.toNat - 65536) % 1024 - 56320) = c.toNat from by omega,
                        Char.ofNat_toNat]

/-- Undoing a whole escaped run: `scanString` consumes the escapes and the
closing quote, returning the accumulated prefix and the decoded string. -/
theorem scanString_flat (s : List Char) : ∀ acc rest,
    scanString acc (s.flatMap escapeChar ++ '"' :: rest) = some (acc.reverse ++ s, rest) := by
  induction s with
  | nil =>
    intro acc rest
    simp [scanString_quote]
  | cons c cs ih =>
    intro acc rest
    rw [List.flatMap_cons, List.append_assoc, scanString_escape, ih]
    simp

/-- The string codec round trip, from the character after the opening
quote. -/
theorem scanString_strChars (s rest : List Char) :
    scanString [] (s.flatMap escapeChar ++ '"' :: rest) = some (s, rest) := by
  rw [scanString_flat]
  simp

/-! ### UTF-8 -/

/-- One-step unfolding of `utf8DecodeF` (definitional). -/
theorem utf8DecodeF_cons (fuel : Nat) (b : Nat) (rest : List Nat) :
    utf8DecodeF (fuel + 1) (b :: rest) =
      (if b < 128 then
        (utf8DecodeF fuel rest).map (fun cs => Char.ofNat b :: cs)
      else if b < 194 then none
      else
        match rest with
        | [] => none
        | b1 :: rest1 =>
          if b < 224 then
            if contByte b1 then
              (utf8DecodeF fuel rest1).map
                (fun cs => Char.ofNat ((b - 192) * 64 + (b1 - 128)) :: cs)
            else none
          else
            match rest1 with
            | [] => none
            | b2 :: rest2 =>
              if b < 240 then
                if contByte b1 && contByte b2 then
                  let v := (b - 224) * 4096 + (b1 - 128) * 64 + (b2 - 128)
                  if 2048 ≤ v && !(55296 ≤ v && v ≤ 57343) then
                    (utf8DecodeF fuel rest2).map (fun cs => Char.ofNat v :: cs)
                  else none
                else none
              else
                match rest2 with
                | [] => none
                | b3 :: rest3 =>
                  if b < 245 then
                    if contByte b1 && contByte b2 && contByte b3 then
                      let v := (b - 240) * 262144 + (b1 - 128) * 4096
                        + (b2 - 128) * 64 + (b3 - 128)
                      if 65536 ≤ v && v < 1114112 then
                        (utf8DecodeF fuel rest3).map (fun cs => Char.ofNat v :: cs)
                      else none
                    else none
                  else none) := rfl

/-- Decoding one encoded scalar value undoes `utf8Char` and consumes one
unit of fuel, whatever follows. -/
theorem utf8Char_decode (c : Char) (fuel : Nat) (rest : List Nat) :
    utf8DecodeF (fuel + 1) (utf8Char c ++ rest)
      = (utf8DecodeF fuel rest).map (fun cs => c :: cs) := by
  obtain ⟨hub, hsur⟩ := char_scalar_bounds c
  by_cases hv1 : c.toNat < 128
  · have harg : utf8Char c ++ rest = c.toNat :: rest := by
      simp [utf8Char, hv1]
    rw [harg, utf8DecodeF_cons, if_pos hv1, Char.ofNat_toNat]
  · by_cases hv2 : c.toNat < 2048
    · have harg : utf8Char c ++ rest
          = (192 + c.toNat / 64) :: ((128 + c.toNat % 64) :: rest) := by
        simp [utf8Char, hv1, hv2]
      have hb1 : ¬ (192 + c.toNat / 64 < 128) := by omega
      have hb2 : ¬ (192 + c.toNat / 64 < 194) := by omega
      have hb3 : 192 + c.toNat / 64 < 224 := by omega
      have hcb : contByte (128 + c.toNat % 64) = true := by
        simp only [contByte, Bool.and_eq_true, decide_eq_true_eq]
        omega
      have hval : (192 + c.toNat / 64 - 192) * 64 + (128 + c.toNat % 64 - 128)
          = c.toNat := by omega
      rw [harg, utf8DecodeF_cons, if_neg hb1, if_neg hb2]
      try simp only []
      rw [if_pos hb3, if_pos hcb, hval, Char.ofNat_toNat]
    · by_cases hv3 : c.toNat < 65536
      · have harg : utf8Char c ++ rest
            = (224 + c.toNat / 4096)
              :: ((128 + c.toNat / 64 % 64) :: ((128 + c.toNat % 64) :: rest)) := by
          simp [utf8Char, hv1, hv2, hv3]
        have hb1 : ¬ (224 + c.toNat / 4096 < 128) := by omega
        have hb2 : ¬ (224 + c.toNat / 4096 < 194) := by omega
        have hb3 : ¬ (224 + c.toNat / 4096 < 224) := by omega
        have hb4 : 224 + c.toNat / 4096 < 240 := by omega
        have hcb : (contByte (128 + c.toNat / 64 % 64)
            && contByte (128 + c.toNat % 64)) = true := by
          simp only [contByte, Bool.and_eq_true, decide_eq_true_eq]
          omega
        have hok : (2048 ≤ (224 + c.toNat / 4096 - 224) * 4096
              + (128 + c.toNat / 64 % 64 - 128) * 64 + (128 + c.toNat % 64 - 128)
            && !(55296 ≤ (224 + c.toNat / 4096 - 224) * 4096
                + (128 + c.toNat / 64 % 64 - 128) * 64 + (128 + c.toNat % 64 - 128)
              && (224 + c.toNat / 4096 - 224) * 4096
                + (128 + c.toNat / 64 % 64 - 128) * 64 + (128 + c.toNat % 64 - 128)
                ≤ 57343)) = true := by
          simp only [Bool.and_eq_true, Bool.not_eq_true', Bool.and_eq_false_iff,
            decide_eq_true_eq, decide_eq_false_iff_not]
          omega
        have hval : (224 + c.toNat / 4096 - 224) * 4096
            + (128 + c.toNat / 64 % 64 - 128) * 64 + (128 + c.toNat % 64 - 128)
            = c.toNat := by omega
        rw [harg, utf8DecodeF_cons, if_neg hb1, if_neg hb2]
        try simp only []
        rw [if_neg hb3]
        try simp only []
        rw [if_pos hb4, if_pos hcb]
        try simp only []
        rw [if_pos hok, hval, Char.ofNat_toNat]
      · have harg : utf8Char c ++ rest
            = (240 + c.toNat / 262144)
              :: ((128 + c.toNat / 4096 % 64)
                :: ((128 + c.toNat / 64 % 64) :: ((128 + c.toNat % 64) :: rest))) := by
          simp [utf8Char, hv1, hv2, hv3]
        have hb1 : ¬ (240 + c.toNat / 262144 < 128) := by omega
        have hb2 : ¬ (240 + c.toNat / 262144 < 194) := by omega
        have hb3 : ¬ (240 + c.toNat / 262144 < 224) := by omega
        have hb4 : ¬ (240 + c.toNat / 262144 < 240) := by omega
        have hb5 : 240 + c.toNat / 262144 < 245 := by omega
        have hcb : (contByte (128 + c.toNat / 4096 % 64)
            && contByte (128 + c.toNat / 64 % 64)
            && contByte (128 + c.toNat % 64)) = true := by
          simp only [contByte, Bool.and_eq_true, decide_eq_true_eq]
          omega
        have hok : (65536 ≤ (240 + c.toNat / 262144 - 240) * 262144
              + (128 + c.toNat / 4096 % 64 - 128) * 4096
              + (128 + c.toNat / 64 % 64 - 128) * 64 + (128 + c.toNat % 64 - 128)
            && (240 + c.toNat / 262144 - 240) * 262144
              + (128 + c.toNat / 4096 % 64 - 128) * 4096
              + (128 + c.toNat / 64 % 64 - 128) * 64 + (128 + c.toNat % 64 - 128)
                < 1114112) = true := by
          simp only [Bool.and_eq_true, decide_eq_true_eq]
          omega
        have hval : (240 + c.toNat / 262144 - 240) * 262144
            + (128 + c.toNat / 4096 % 64 - 128) * 4096
            + (128 + c.toNat / 64 % 64 - 128) * 64 + (128 + c.toNat % 64 - 128)
            = c.toNat := by omega
        rw [harg, utf8DecodeF_cons, if_neg hb1, if_neg hb2]
        try simp only []
        rw [if_neg hb3]
        try simp only []
        rw [if_neg hb4]
        try simp only []
        rw [if_pos hb5, if_pos hcb]
        try simp only []
        rw [if_pos hok, hval, Char.ofNat_toNat]

/-- With enough fuel, decoding inverts the encoder. -/
theorem utf8DecodeF_encode (s : List Char) : ∀ fuel, s.length ≤ fuel →
    utf8DecodeF fuel (utf8Encode s) = some s := by
  induction s with
  | nil =>
    intro fuel _
    rw [show utf8Encode [] = [] from rfl]
    cases fuel <;> rfl
  | cons c cs ih =>
    intro fuel hf
    match fuel with
    | f + 1 =>
      rw [show utf8Encode (c :: cs) = utf8Char c ++ utf8Encode cs from by
        simp [utf8Encode]]
      have hcs : cs.length ≤ f := by
        simp only [List.length_cons] at hf
        omega
      rw [utf8Char_decode, ih f hcs]
      rfl

/-- One character encodes to at least one byte. -/
theorem utf8Char_length (c : Char) : 1 ≤ (utf8Char c).length := by
  unfold utf8Char
  simp only []
  split_ifs <;> simp

/-- The encoded form is at least as long as the string. -/
theorem utf8Encode_length (s : List Char) : s.length ≤ (utf8Encode s).length := by
  induction s with
  | nil => simp [utf8Encode]
  | cons c cs ih =>
    have h : utf8Encode (c :: cs) = utf8Char c ++ utf8Encode cs := by
      simp [utf8Encode]
    rw [h]
    simp only [List.length_cons, List.length_append]
    have := utf8Char_length c
    omega

/-- The UTF-8 codec round trip. -/
theorem utf8_roundtrip (s : List Char) : utf8Decode (utf8Encode s) = some s := by
  unfold utf8Decode
  exact utf8DecodeF_encode s _ (utf8Encode_length s)

/-! ### Parser infrastructure -/

/-- `skipWs` stops at a non-whitespace head. -/
theorem skipWs_stop (c : Char) (x : List Char) (h : isJsonWs c = false) :
    skipWs (c :: x) = c :: x := by
  simp [skipWs, h]

/-- `skipWs` eats a whitespace head. -/
theorem skipWs_ws (c : Char) (x : List Char) (h : isJsonWs c = true) :
    skipWs (c :: x) = skipWs x := by
  simp [skipWs, h]

/-- A decimal digit character is none of the JSON structural characters. -/
theorem digit_not_special (c : Char) (h : isDigitChar c = true) :
    isJsonWs c = false ∧ c ≠ ']' ∧ c ≠ '}' ∧ c ≠ ',' ∧ c ≠ 'n' ∧ c ≠ 't'
      ∧ c ≠ 'f' ∧ c ≠ '"' ∧ c ≠ '[' ∧ c ≠ '{' ∧ c ≠ ':' ∧ c ≠ '-' := by
  refine ⟨?_, ?_, ?_, ?_, ?_, ?_, ?_, ?_, ?_, ?_, ?_, ?_⟩
  · simp only [isJsonWs, Bool.or_eq_false_iff, decide_eq_false_iff_not]
    refine ⟨⟨⟨?_, ?_⟩, ?_⟩, ?_⟩ <;> (intro he; subst he; exact absurd h (by decide))
  all_goals (intro he; subst he; exact absurd h (by decide))

/-- Every rendered value starts with a character that is not whitespace and
closes nothing. -/
theorem dumps_head (j : Json) :
    ∃ c t, dumps j = c :: t ∧ isJsonWs c = false ∧ c ≠ ']' ∧ c ≠ '}' ∧ c ≠ ',' := by
  cases j with
  | null => exact ⟨'n', _, rfl, by decide, by decide, by decide, by decide⟩
  | bool b =>
    cases b with
    | true => exact ⟨'t', _, rfl, by decide, by decide, by decide, by decide⟩
    | false => exact ⟨'f', _, rfl, by decide, by decide, by decide, by decide⟩
  | str s => exact ⟨'"', _, rfl, by decide, by decide, by decide, by decide⟩
  | arr items => exact ⟨'[', _, rfl, by decide, by decide, by decide, by decide⟩
  | obj ms => exact ⟨'{', _, rfl, by decide, by decide, by decide, by decide⟩
  | num m f =>
    by_cases hm : m < 0
    · refine ⟨'-', ?_, ?_, by decide, by decide, by decide, by decide⟩
      · exact (numChars m f).tail ++ []
      · have : ∃ t, numChars m f = '-' :: t := by
          by_cases hf : f = 0
          · subst hf
            exact ⟨natChars m.natAbs [], by simp [numChars, intChars, hm]⟩
          · exact ⟨natChars (m.natAbs / 10 ^ f) [] ++ '.'
              :: natCharsPad f (m.natAbs % 10 ^ f), by simp [numChars, hf, hm]⟩
        obtain ⟨t, ht⟩ := this
        rw [show dumps (Json.num m f) = numChars m f from rfl, ht]
        simp
    · have hhead : ∃ c0 t0, numChars m f = c0 :: t0 ∧ isDigitChar c0 = true := by
        by_cases hf : f = 0
        · subst hf
          obtain ⟨c0, t0, hct, hd, _⟩ := natChars_head m.natAbs
          exact ⟨c0, t0, by simp [numChars, intChars, hm, hct], hd⟩
        · obtain ⟨c0, t0, hct, hd, _⟩ := natChars_head (m.natAbs / 10 ^ f)
          exact ⟨c0, t0 ++ '.' :: natCharsPad f (m.natAbs % 10 ^ f),
            by simp [numChars, hf, hm, hct], hd⟩
      obtain ⟨c0, t0, hct, hd⟩ := hhead
      obtain ⟨hws, hbr, hbc, hcm, _⟩ := digit_not_special c0 hd
      exact ⟨c0, t0, by rw [show dumps (Json.num m f) = numChars m f from rfl, hct],
        hws, hbr, hbc, hcm⟩

/-- `skipWs` is the identity in front of every rendered value. -/
theorem skipWs_dumps (j : Json) (x : List Char) :
    skipWs (dumps j ++ x) = dumps j ++ x := by
  obtain ⟨c, t, hct, hws, _, _, _⟩ := dumps_head j
  rw [hct, List.cons_append, skipWs_stop _ _ hws]

/-- Inserting a fresh key appends. -/
theorem dictInsert_fresh (acc : List (List Char × Json)) (k : List Char) (v : Json)
    (h : ∀ p ∈ acc, p.1 ≠ k) : dictInsert acc k v = acc ++ [(k, v)] := by
  have hany : acc.any (fun p => p.1 == k) = false := by
    rw [List.any_eq_false]
    intro p hp
    simpa using h p hp
  simp [dictInsert, hany]

/-- Folding `dictInsert` over members whose keys are distinct and disjoint
from the accumulator just appends them. -/
theorem dictInsert_foldl (ps : List (List Char × Json)) :
    ∀ acc, keysDistinct (ps.map Prod.fst) = true →
      (∀ p ∈ acc, ∀ q ∈ ps, p.1 ≠ q.1) →
      ps.foldl (fun acc kv => dictInsert acc kv.1 kv.2) acc = acc ++ ps := by
  induction ps with
  | nil => intro acc _ _; simp
  | cons q ps ih =>
    intro acc hkd hdisj
    simp only [List.map_cons, keysDistinct, Bool.and_eq_true] at hkd
    obtain ⟨hq, hkd⟩ := hkd
    simp only [List.foldl_cons]
    rw [dictInsert_fresh acc q.1 q.2 (fun p hp => hdisj p hp q (by simp))]
    have hdisj2 : ∀ p ∈ acc ++ [(q.1, q.2)], ∀ r ∈ ps, p.1 ≠ r.1 := by
      intro p hp r hr
      rcases List.mem_append.mp hp with hp | hp
      · exact hdisj p hp r (by simp [hr])
      · have hpq : p = (q.1, q.2) := by simpa using hp
        subst hpq
        intro hkeq
        rw [Bool.not_eq_true'] at hq
        have hmem : q.1 ∈ ps.map Prod.fst := by
          rw [show q.1 = r.1 from by simpa using hkeq]
          exact List.mem_map_of_mem Prod.fst hr
        have helem := List.elem_iff.mpr hmem
        rw [List.contains] at hq
        rw [hq] at helem
        exact Bool.false_ne_true helem
    rw [ih (acc ++ [(q.1, q.2)]) hkd hdisj2]
    simp

/-- Python builds the `dict` of distinct-keyed parsed members verbatim. -/
theorem dictOfPairs_distinct (ps : List (List Char × Json))
    (h : keysDistinct (ps.map Prod.fst) = true) : dictOfPairs ps = ps := by
  have hgo := dictInsert_foldl ps [] h (fun p hp => absurd hp (List.not_mem_nil p))
  simp only [dictOfPairs]
  rw [hgo]
  simp

/-! ### One-step unfoldings of the parser (definitional) -/

/-- One-step unfolding of `parseValue` (definitional). -/
theorem parseValue_succ (fuel : Nat) (cs : List Char) :
    parseValue (fuel + 1) cs =
      (match skipWs cs with
      | 'n' :: 'u' :: 'l' :: 'l' :: r => some (.null, r)
      | 't' :: 'r' :: 'u' :: 'e' :: r => some (.bool true, r)
      | 'f' :: 'a' :: 'l' :: 's' :: 'e' :: r => some (.bool false, r)
      | '"' :: r =>
        match scanString [] r with
        | some (s, r2) => some (.str s, r2)
        | none => none
      | '[' :: r =>
        match skipWs r with
        | ']' :: r2 => some (.arr [], r2)
        | r2 =>
          match parseItems fuel r2 with
          | some (vs, r3) => some (.arr vs, r3)
          | none => none
      | '{' :: r =>
        match skipWs r with
        | '}' :: r2 => some (.obj [], r2)
        | r2 =>
          match parsePairs fuel r2 with
          | some (ms, r3) => some (.obj (dictOfPairs ms), r3)
          | none => none
      | c :: r =>
        if c = '-' || isDigitChar c then
          match parseNumber (c :: r) with
          | some (p, r2) => some (.num p.1 p.2, r2)
          | none => none
        else none
      | [] => none) := rfl

/-- One-step unfolding of `parseItems` (definitional). -/
theorem parseItems_succ (fuel : Nat) (cs : List Char) :
    parseItems (fuel + 1) cs =
      (match parseValue fuel cs with
      | none => none
      | some (v, r) =>
        match skipWs r with
        | ',' :: r2 =>
          match parseItems fuel r2 with
          | some (vs, r3) => some (v :: vs, r3)
          | none => none
        | ']' :: r2 => some ([v], r2)
        | _ => none) := rfl

/-- One-step unfolding of `parsePairs` (definitional). -/
theorem parsePairs_succ (fuel : Nat) (cs : List Char) :
    parsePairs (fuel + 1) cs =
      (match skipWs cs with
      | '"' :: r =>
        match scanString [] r with
        | none => none
        | some (key, r1) =>
          match skipWs r1 with
          | ':' :: r2 =>
            match parseValue fuel r2 with
            | none => none
            | some (v, r3) =>
              match skipWs r3 with
              | ',' :: r4 =>
                match parsePairs fuel r4 with
                | some (ms, r5) => some ((key, v) :: ms, r5)
                | none => none
              | '}' :: r4 => some ([(key, v)], r4)
              | _ => none
          | _ => none
      | _ => none) := rfl

/-- `parseValue` ignores a leading whitespace character. -/
theorem parseValue_ws (fuel : Nat) (c : Char) (x : List Char) (h : isJsonWs c = true) :
    parseValue fuel (c :: x) = parseValue fuel x := by
  cases fuel with
  | zero => rfl
  | succ g => rw [parseValue_succ, parseValue_succ, skipWs_ws c x h]

/-- `parseItems` ignores a leading whitespace character. -/
theorem parseItems_ws (fuel : Nat) (c : Char) (x : List Char) (h : isJsonWs c = true) :
    parseItems fuel (c :: x) = parseItems fuel x := by
  cases fuel with
  | zero => rfl
  | succ g => rw [parseItems_succ, parseItems_succ, parseValue_ws g c x h]

/-- `parsePairs` ignores a leading whitespace character. -/
theorem parsePairs_ws (fuel : Nat) (c : Char) (x : List Char) (h : isJsonWs c = true) :
    parsePairs fuel (c :: x) = parsePairs fuel x := by
  cases fuel with
  | zero => rfl
  | succ g => rw [parsePairs_succ, parsePairs_succ, skipWs_ws c x h]

/-- `parseValue` on a rendered `null`. -/
theorem parseValue_null (fuel : Nat) (r : List Char) :
    parseValue (fuel + 1) ('n' :: 'u' :: 'l' :: 'l' :: r) = some (Json.null, r) := rfl

/-- `parseValue` on a rendered `true`. -/
theorem parseValue_true (fuel : Nat) (r : List Char) :
    parseValue (fuel + 1) ('t' :: 'r' :: 'u' :: 'e' :: r) = some (Json.bool true, r) := rfl

/-- `parseValue` on a rendered `false`. -/
theorem parseValue_false (fuel : Nat) (r : List Char) :
    parseValue (fuel + 1) ('f' :: 'a' :: 'l' :: 's' :: 'e' :: r) =
      some (Json.bool false, r) := rfl

/-- `parseValue` after an opening quote scans a string. -/
theorem parseValue_str (fuel : Nat) (r : List Char) :
    parseValue (fuel + 1) ('"' :: r) =
      (match scanString [] r with
      | some (s, r2) => some (Json.str s, r2)
      | none => none) := rfl

/-- `parseValue` on an empty array. -/
theorem parseValue_arr_nil (fuel : Nat) (r : List Char) :
    parseValue (fuel + 1) ('[' :: ']' :: r) = some (Json.arr [], r) := rfl

/-- `parseValue` on an empty object. -/
theorem parseValue_obj_nil (fuel : Nat) (r : List Char) :
    parseValue (fuel + 1) ('{' :: '}' :: r) = some (Json.obj [], r) := rfl

/-- `parseValue` after `[` with a non-`]`, non-whitespace head parses items. -/
theorem parseValue_arr_cons (fuel : Nat) (c : Char) (t : List Char)
    (hws : isJsonWs c = false) (hbr : c ≠ ']') :
    parseValue (fuel + 1) ('[' :: c :: t) =
      (match parseItems fuel (c :: t) with
      | some (vs, r3) => some (Json.arr vs, r3)
      | none => none) := by
  rw [show parseValue (fuel + 1) ('[' :: c :: t) =
      (match skipWs (c :: t) with
      | ']' :: r2 => some (Json.arr [], r2)
      | r2 =>
        match parseItems fuel r2 with
        | some (vs, r3) => some (Json.arr vs, r3)
        | none => none) from rfl,
    skipWs_stop c t hws]
  split
  next r2 heq =>
    injection heq with h1 _
    exact absurd h1 hbr
  next => rfl

/-- `parseValue` after `{` with a non-`}`, non-whitespace head parses members. -/
theorem parseValue_obj_cons (fuel : Nat) (c : Char) (t : List Char)
    (hws : isJsonWs c = false) (hbr : c ≠ '}') :
    parseValue (fuel + 1) ('{' :: c :: t) =
      (match parsePairs fuel (c :: t) with
      | some (ms, r3) => some (Json.obj (dictOfPairs ms), r3)
      | none => none) := by
  rw [show parseValue (fuel + 1) ('{' :: c :: t) =
      (match skipWs (c :: t) with
      | '}' :: r2 => some (Json.obj [], r2)
      | r2 =>
        match parsePairs fuel r2 with
        | some (ms, r3) => some (Json.obj (dictOfPairs ms), r3)
        | none => none) from rfl,
    skipWs_stop c t hws]
  split
  next r2 heq =>
    injection heq with h1 _
    exact absurd h1 hbr
  next => rfl

/-- `parseValue` at a number head falls through the literal patterns to
`parseNumber`. -/
theorem parseValue_numHead (fuel : Nat) (c0 : Char) (t : List Char)
    (hg : c0 = '-' ∨ isDigitChar c0 = true) :
    parseValue (fuel + 1) (c0 :: t) =
      (match parseNumber (c0 :: t) with
      | some (p, r2) => some (Json.num p.1 p.2, r2)
      | none => none) := by
  rcases hg with h | hd
  · subst h; rfl
  · obtain ⟨h1, h2⟩ := isDigitChar_toNat c0 hd
    have hk : c0.toNat = 48 ∨ c0.toNat = 49 ∨ c0.toNat = 50 ∨ c0.toNat = 51
        ∨ c0.toNat = 52 ∨ c0.toNat = 53 ∨ c0.toNat = 54 ∨ c0.toNat = 55
        ∨ c0.toNat = 56 ∨ c0.toNat = 57 := by omega
    rcases hk with h|h|h|h|h|h|h|h|h|h <;>
      (rw [show c0 = Char.ofNat c0.toNat from (Char.ofNat_toNat c0).symm, h]; rfl)

/-- A rendered number starts with `-` or a digit. -/
theorem numChars_head (m : Int) (f : Nat) :
    ∃ c0 t0, numChars m f = c0 :: t0 ∧ (c0 = '-' ∨ isDigitChar c0 = true) := by
  by_cases hm : m < 0
  · by_cases hf : f = 0
    · exact ⟨'-', natChars m.natAbs [], by simp [numChars, intChars, hm, hf], Or.inl rfl⟩
    · exact ⟨'-', natChars (m.natAbs / 10 ^ f) []
        ++ '.' :: natCharsPad f (m.natAbs % 10 ^ f), by simp [numChars, hf, hm], Or.inl rfl⟩
  · by_cases hf : f = 0
    · obtain ⟨c0, t0, hct, hd, _⟩ := natChars_head m.natAbs
      exact ⟨c0, t0, by simp [numChars, intChars, hm, hf, hct], Or.inr hd⟩
    · obtain ⟨c0, t0, hct, hd, _⟩ := natChars_head (m.natAbs / 10 ^ f)
      exact ⟨c0, t0 ++ '.' :: natCharsPad f (m.natAbs % 10 ^ f),
        by simp [numChars, hf, hm, hct], Or.inr hd⟩

/-- `parseValue` on a rendered number followed by a non-number-extending
remainder returns the exact decimal. -/
theorem parseValue_num (fuel : Nat) (m : Int) (f : Nat) (rest : List Char)
    (hrest : numStop rest = true) :
    parseValue (fuel + 1) (numChars m f ++ rest) = some (Json.num m f, rest) := by
  obtain ⟨c0, t0, hct, hg⟩ := numChars_head m f
  rw [hct, List.cons_append, parseValue_numHead fuel c0 (t0 ++ rest) hg,
    ← List.cons_append, ← hct, parseNumber_numChars m f rest hrest]

/-- A rendered value is never empty. -/
theorem dumps_length_pos (j : Json) : 1 ≤ (dumps j).length := by
  obtain ⟨c, t, hct, _⟩ := dumps_head j
  rw [hct]
  simp

/-- The item list of a non-empty array renders with a head character that
is not whitespace and not `]`. -/
theorem dumpItems_head (v : Json) (vs : List Json) :
    ∃ c t, dumpItems (v :: vs) = c :: t ∧ isJsonWs c = false ∧ c ≠ ']' := by
  obtain ⟨c, t, hct, hws, hbr, _, _⟩ := dumps_head v
  cases vs with
  | nil => exact ⟨c, t, by simp [dumpItems, hct], hws, hbr⟩
  | cons v2 vs2 =>
    exact ⟨c, t ++ ',' :: ' ' :: dumpItems (v2 :: vs2),
      by simp [dumpItems, hct], hws, hbr⟩

/-- When the leading value of an item list parses and leaves a comma-space
remainder, `parseItems` continues on the remainder. -/
theorem parseItems_comma (g : Nat) (cs x : List Char) (v : Json)
    (h : parseValue g cs = some (v, ',' :: ' ' :: x)) :
    parseItems (g + 1) cs =
      (match parseItems g (' ' :: x) with
      | some (vs, r3) => some (v :: vs, r3)
      | none => none) := by
  rw [parseItems_succ, h]
  rfl

/-- When the leading value of an item list parses and leaves a closing
bracket, `parseItems` finishes. -/
theorem parseItems_close (g : Nat) (cs x : List Char) (v : Json)
    (h : parseValue g cs = some (v, ']' :: x)) :
    parseItems (g + 1) cs = some ([v], x) := by
  rw [parseItems_succ, h]
  rfl

/-- One member step of `parsePairs`: the scanned key, the colon-space
separator, and the parsed value determine the continuation. -/
theorem parsePairs_member (g : Nat) (tail x r3 : List Char) (k : List Char) (v : Json)
    (hscan : scanString [] tail = some (k, ':' :: ' ' :: x))
    (hval : parseValue g (' ' :: x) = some (v, r3)) :
    parsePairs (g + 1) ('"' :: tail) =
      (match skipWs r3 with
      | ',' :: r4 =>
        match parsePairs g r4 with
        | some (ms, r5) => some ((k, v) :: ms, r5)
        | none => none
      | '}' :: r4 => some ([(k, v)], r4)
      | _ => none) := by
  rw [show parsePairs (g + 1) ('"' :: tail) =
      (match scanString [] tail with
      | none => none
      | some (key, r1) =>
        match skipWs r1 with
        | ':' :: r2 =>
          match parseValue g r2 with
          | none => none
          | some (v, r3) =>
            match skipWs r3 with
            | ',' :: r4 =>
              match parsePairs g r4 with
              | some (ms, r5) => some ((key, v) :: ms, r5)
              | none => none
            | '}' :: r4 => some ([(key, v)], r4)
            | _ => none
        | _ => none) from rfl,
    hscan]
  simp only []
  rw [skipWs_stop ':' (' ' :: x) (by rfl)]
  simp only []
  rw [hval]


mutual

/-- Parsing a rendered well-formed value consumes exactly the rendering and
returns the value. -/
theorem rtVal : ∀ (j : Json) (fuel : Nat) (rest : List Char), pyWf j = true →
    (dumps j).length < fuel → numStop rest = true →
    parseValue fuel (dumps j ++ rest) = some (j, rest)
  | Json.null, fuel, rest, _, hfuel, _ => by
    obtain ⟨g, rfl⟩ : ∃ g, fuel = g + 1 := ⟨fuel - 1, by omega⟩
    exact parseValue_null g rest
  | Json.bool true, fuel, rest, _, hfuel, _ => by
    obtain ⟨g, rfl⟩ : ∃ g, fuel = g + 1 := ⟨fuel - 1, by omega⟩
    exact parseValue_true g rest
  | Json.bool false, fuel, rest, _, hfuel, _ => by
    obtain ⟨g, rfl⟩ : ∃ g, fuel = g + 1 := ⟨fuel - 1, by omega⟩
    exact parseValue_false g rest
  | Json.num m f, fuel, rest, _, hfuel, hrest => by
    obtain ⟨g, rfl⟩ : ∃ g, fuel = g + 1 := ⟨fuel - 1, by omega⟩
    exact parseValue_num g m f rest hrest
  | Json.str s, fuel, rest, _, hfuel, _ => by
    obtain ⟨g, rfl⟩ : ∃ g, fuel = g + 1 := ⟨fuel - 1, by omega⟩
    have harg : dumps (Json.str s) ++ rest
        = '"' :: (s.flatMap escapeChar ++ '"' :: rest) := by
      simp [dumps, strChars]
    rw [harg, parseValue_str, scanString_strChars s rest]
  | Json.arr [], fuel, rest, _, hfuel, _ => by
    obtain ⟨g, rfl⟩ : ∃ g, fuel = g + 1 := ⟨fuel - 1, by omega⟩
    exact parseValue_arr_nil g rest
  | Json.arr (v :: vs), fuel, rest, hwf, hfuel, _ => by
    obtain ⟨g, rfl⟩ : ∃ g, fuel = g + 1 := ⟨fuel - 1, by omega⟩
    have hwfl : pyWfList (v :: vs) = true := by simpa [pyWf] using hwf
    have hlen : (dumps (Json.arr (v :: vs))).length
        = (dumpItems (v :: vs)).length + 2 := by simp [dumps]
    obtain ⟨c, t, hct, hws, hbr⟩ := dumpItems_head v vs
    have harg : dumps (Json.arr (v :: vs)) ++ rest = '[' :: c :: (t ++ ']' :: rest) := by
      simp [dumps, hct]
    rw [harg, parseValue_arr_cons g c (t ++ ']' :: rest) hws hbr,
      show c :: (t ++ ']' :: rest) = dumpItems (v :: vs) ++ ']' :: rest from by
        rw [hct]
        simp,
      rtItems (v :: vs) g rest (by simp) hwfl (by omega)]
  | Json.obj [], fuel, rest, _, hfuel, _ => by
    obtain ⟨g, rfl⟩ : ∃ g, fuel = g + 1 := ⟨fuel - 1, by omega⟩
    exact parseValue_obj_nil g rest
  | Json.obj ((k, v) :: ms2), fuel, rest, hwf, hfuel, _ => by
    obtain ⟨g, rfl⟩ : ∃ g, fuel = g + 1 := ⟨fuel - 1, by omega⟩
    simp only [pyWf, Bool.and_eq_true] at hwf
    obtain ⟨hkd, hwp⟩ := hwf
    have hlen : (dumps (Json.obj ((k, v) :: ms2))).length
        = (dumpPairs ((k, v) :: ms2)).length + 2 := by simp [dumps]
    have hhd : ∃ t, dumpPairs ((k, v) :: ms2) = '"' :: t := by
      cases ms2 with
      | nil =>
        exact ⟨(k.flatMap escapeChar ++ ['"']) ++ ':' :: ' ' :: dumps v,
          by simp [dumpPairs, strChars]⟩
      | cons p2 ms3 =>
        exact ⟨(k.flatMap escapeChar ++ ['"'])
            ++ ':' :: ' ' :: (dumps v ++ ',' :: ' ' :: dumpPairs (p2 :: ms3)),
          by simp [dumpPairs, strChars]⟩
    obtain ⟨t, hct⟩ := hhd
    have harg : dumps (Json.obj ((k, v) :: ms2)) ++ rest
        = '{' :: '"' :: (t ++ '}' :: rest) := by
      simp [dumps, hct]
    rw [harg, parseValue_obj_cons g '"' (t ++ '}' :: rest) (by rfl) (by decide),
      show ('"' : Char) :: (t ++ '}' :: rest) = dumpPairs ((k, v) :: ms2) ++ '}' :: rest from by
        rw [hct]
        simp,
      rtPairs ((k, v) :: ms2) g rest (by simp) hwp (by omega)]
    simp only []
    rw [dictOfPairs_distinct ((k, v) :: ms2) hkd]
termination_by j fuel rest hwf hfuel hrest => sizeOf j
decreasing_by all_goals (simp_wf <;> omega)

/-- Parsing the rendered items of a non-empty array up to the closing
bracket returns the items. -/
theorem rtItems : ∀ (items : List Json) (fuel : Nat) (rest : List Char), items ≠ [] →
    pyWfList items = true → (dumpItems items).length + 1 < fuel →
    parseItems fuel (dumpItems items ++ ']' :: rest) = some (items, rest)
  | [], _, _, hne, _, _ => absurd rfl hne
  | [v], fuel, rest, _, hwf, hfuel => by
    obtain ⟨g, rfl⟩ : ∃ g, fuel = g + 1 := ⟨fuel - 1, by omega⟩
    simp only [pyWfList, Bool.and_eq_true] at hwf
    obtain ⟨hv, _⟩ := hwf
    have hd1 : dumpItems [v] = dumps v := by simp [dumpItems]
    rw [hd1] at hfuel ⊢
    exact parseItems_close g (dumps v ++ ']' :: rest) rest v
      (rtVal v g (']' :: rest) hv (by omega) (by rfl))
  | v :: v2 :: vs2, fuel, rest, _, hwf, hfuel => by
    obtain ⟨g, rfl⟩ : ∃ g, fuel = g + 1 := ⟨fuel - 1, by omega⟩
    simp only [pyWfList, Bool.and_eq_true] at hwf
    obtain ⟨hv, hvs⟩ := hwf
    have hd1 : dumpItems (v :: v2 :: vs2)
        = dumps v ++ ',' :: ' ' :: dumpItems (v2 :: vs2) := by simp [dumpItems]
    have hlv := dumps_length_pos v
    rw [hd1] at hfuel
    simp only [List.length_append, List.length_cons] at hfuel
    have harg : dumpItems (v :: v2 :: vs2) ++ ']' :: rest
        = dumps v ++ ',' :: ' ' :: (dumpItems (v2 :: vs2) ++ ']' :: rest) := by
      rw [hd1]
      simp
    rw [harg,
      parseItems_comma g _ (dumpItems (v2 :: vs2) ++ ']' :: rest) v
        (rtVal v g (',' :: ' ' :: (dumpItems (v2 :: vs2) ++ ']' :: rest)) hv
          (by omega) (by rfl)),
      parseItems_ws g ' ' _ (by rfl),
      rtItems (v2 :: vs2) g rest (by simp)
        (by
          simp only [pyWfList, Bool.and_eq_true]
          exact hvs) (by omega)]
termination_by items fuel rest hne hwf hfuel => sizeOf items
decreasing_by all_goals (simp_wf <;> omega)

/-- Parsing the rendered members of a non-empty object up to the closing
brace returns the members in order. -/
theorem rtPairs : ∀ (ms : List (List Char × Json)) (fuel : Nat) (rest : List Char),
    ms ≠ [] → pyWfPairs ms = true → (dumpPairs ms).length + 1 < fuel →
    parsePairs fuel (dumpPairs ms ++ '}' :: rest) = some (ms, rest)
  | [], _, _, hne, _, _ => absurd rfl hne
  | [(k, v)], fuel, rest, _, hwf, hfuel => by
    obtain ⟨g, rfl⟩ : ∃ g, fuel = g + 1 := ⟨fuel - 1, by omega⟩
    simp only [pyWfPairs, Bool.and_eq_true] at hwf
    obtain ⟨hv, _⟩ := hwf
    have hlv := dumps_length_pos v
    have hd1 : dumpPairs [(k, v)] = strChars k ++ ':' :: ' ' :: dumps v := by
      simp [dumpPairs]
    rw [hd1] at hfuel
    simp only [List.length_append, List.length_cons] at hfuel
    have harg : dumpPairs [(k, v)] ++ '}' :: rest
        = '"' :: (k.flatMap escapeChar ++ '"'
            :: (':' :: ' ' :: (dumps v ++ '}' :: rest))) := by
      rw [hd1]
      simp [strChars]
    rw [harg,
      parsePairs_member g _ (dumps v ++ '}' :: rest) ('}' :: rest) k v
        (scanString_strChars k _)
        (by
          rw [parseValue_ws g ' ' _ (by rfl)]
          exact rtVal v g ('}' :: rest) hv (by omega) (by rfl))]
    rfl
  | (k, v) :: p2 :: ms3, fuel, rest, _, hwf, hfuel => by
    obtain ⟨g, rfl⟩ : ∃ g, fuel = g + 1 := ⟨fuel - 1, by omega⟩
    simp only [pyWfPairs, Bool.and_eq_true] at hwf
    obtain ⟨hv, hms⟩ := hwf
    have hlv := dumps_length_pos v
    have hd1 : dumpPairs ((k, v) :: p2 :: ms3)
        = strChars k ++ ':' :: ' ' :: (dumps v ++ ',' :: ' ' :: dumpPairs (p2 :: ms3)) := by
      simp [dumpPairs]
    rw [hd1] at hfuel
    simp only [List.length_append, List.length_cons] at hfuel
    have harg : dumpPairs ((k, v) :: p2 :: ms3) ++ '}' :: rest
        = '"' :: (k.flatMap escapeChar ++ '"'
            :: (':' :: ' ' :: (dumps v
              ++ ',' :: ' ' :: (dumpPairs (p2 :: ms3) ++ '}' :: rest)))) := by
      rw [hd1]
      simp [strChars]
    rw [harg,
      parsePairs_member g _ (dumps v ++ ',' :: ' ' :: (dumpPairs (p2 :: ms3) ++ '}' :: rest))
        (',' :: ' ' :: (dumpPairs (p2 :: ms3) ++ '}' :: rest)) k v
        (scanString_strChars k _)
        (by
          rw [parseValue_ws g ' ' _ (by rfl)]
          exact rtVal v g (',' :: ' ' :: (dumpPairs (p2 :: ms3) ++ '}' :: rest)) hv
            (by omega) (by rfl)),
      skipWs_stop ',' _ (by rfl)]
    simp only []
    rw [parsePairs_ws g ' ' _ (by rfl),
      rtPairs (p2 :: ms3) g rest (by simp)
        (by
          simp only [pyWfPairs, Bool.and_eq_true]
          exact hms) (by omega)]
termination_by ms fuel rest hne hwf hfuel => sizeOf ms
decreasing_by all_goals (simp_wf <;> omega)

end

/-- `json.loads` is a left inverse of `json.dumps` on well-formed values. -/
theorem loads_dumps (j : Json) (hwf : pyWf j = true) : loads (dumps j) = some j := by
  have h := rtVal j ((dumps j).length + 1) [] hwf (by omega) (by rfl)
  rw [List.append_nil] at h
  simp only [loads]
  rw [h]
  rfl

/-- Decoding a published body recovers the value exactly. -/
theorem consumeDecode_publishBody (j : Json) (hwf : pyWf j = true) :
    consumeDecode (publishBody j) = some j := by
  simp only [publishBody, consumeDecode]
  rw [utf8_roundtrip (dumps j)]
  exact loads_dumps j hwf

/-- C4: for every JSON-compatible mapping from string keys to JSON-compatible
values (pairwise-distinct keys throughout, as any Python `dict` has),
serializing it as the publish wire payload — `json.dumps` then UTF-8 encoding,
exactly what `publish_message` does — and then decoding the delivered body —
UTF-8 decoding then `json.loads`, exactly what `consume_messages` does —
yields a mapping deep-equal to the original: the consume-side decode is a
left inverse of the publish-side encode. -/
theorem publish_consume_roundtrip (ms : List (List Char × Json))
    (hwf : pyWf (Json.obj ms) = true) :
    consumeDecode (publishBody (Json.obj ms)) = some (Json.obj ms) :=
  consumeDecode_publishBody (Json.obj ms) hwf

/-- C4 witness: the round trip at the spec's own example
`{"id": "book123", "price": 29.99}` (`29.99` as the exact decimal `2999/100`). -/
theorem publish_consume_roundtrip_witness :
    pyWf (Json.obj [(['i', 'd'], Json.str ['b', 'o', 'o', 'k', '1', '2', '3']),
      (['p', 'r', 'i', 'c', 'e'], Json.num 2999 2)]) = true
    ∧ consumeDecode (publishBody (Json.obj
        [(['i', 'd'], Json.str ['b', 'o', 'o', 'k', '1', '2', '3']),
         (['p', 'r', 'i', 'c', 'e'], Json.num 2999 2)]))
      = some (Json.obj [(['i', 'd'], Json.str ['b', 'o', 'o', 'k', '1', '2', '3']),
         (['p', 'r', 'i', 'c', 'e'], Json.num 2999 2)]) :=
  ⟨by decide, publish_consume_roundtrip _ (by decide)⟩
